import Mathlib

/-!
# NeuroNet `SparseGraph` (CSR graph with bounded BFS)

Shallow embedding of `src/NeuroNet/src/cpp/Graph.cpp` / `Graph.h`.

Conventions of the embedding
* A file is its contents, a `List Char`; `none` stands for a file that cannot be opened.
* External ids are C `int`s read from the file: `Int` values in `[-2^31, 2^31)`
  (the extraction operator fails outside that range).
* Internal ids, array indices, row offsets and counters are non-negative C `int`s and are
  modelled by `Nat`; the embedding covers inputs whose edge count fits a C `int`
  (fewer than `2^31` edges), beyond which the C++ program has no defined behaviour.
* Raw arrays (`new T[n]`) are lists of length `n`, written with `List.set` and read with
  `List.getD`; uninitialised cells hold the default value.
* `std::map<int,int>` is a key-sorted association list.
-/

namespace NeuroNet

/-! ## Reading the edge list -/

/-- The `isspace` classification of the "C" locale: space, `\t`, `\n`, `\v`, `\f`, `\r`. -/
def isspace (c : Char) : Bool :=
  c.toNat == 32 || (9 ≤ c.toNat && c.toNat ≤ 13)

/-- Decimal digit test. -/
def isdigit (c : Char) : Bool :=
  48 ≤ c.toNat && c.toNat ≤ 57

/-- Value of a run of decimal digits, most significant first, continuing from `acc`. -/
def digitsVal : List Char → Nat → Nat
  | [], acc => acc
  | c :: cs, acc => digitsVal cs (acc * 10 + (c.toNat - 48))

/-- Lower bound of a C `int`. -/
def INT_MIN : Int := -2147483648

/-- Upper bound of a C `int`. -/
def INT_MAX : Int := 2147483647

/-- Formatted extraction `stream >> n` for an `int` (decimal base, "C" locale): skip leading
whitespace, read an optional sign and then the longest run of digits.  Fails (`none`) when no
digit is found or the value does not fit an `int`; otherwise returns the value and the
unread remainder of the stream. -/
def extractInt (cs : List Char) : Option (Int × List Char) :=
  let cs1 := cs.dropWhile isspace
  let signed : Bool × List Char :=
    match cs1 with
    | '-' :: t => (true, t)
    | '+' :: t => (false, t)
    | _ => (false, cs1)
  let ds := signed.2.takeWhile isdigit
  let rest := signed.2.dropWhile isdigit
  if ds.isEmpty then none
  else
    let n : Int := (digitsVal ds 0 : Nat)
    let val : Int := if signed.1 then -n else n
    if val < INT_MIN ∨ INT_MAX < val then none else some (val, rest)

/-- The test `ss >> u >> v` on a line: both extractions must succeed; whatever follows the
second integer is left unread. -/
def parsePair (line : List Char) : Option (Int × Int) :=
  match extractInt line with
  | none => none
  | some (u, rest) =>
    match extractInt rest with
    | none => none
    | some (v, _) => some (u, v)

/-- The body shared by both passes: `if (line.empty() || line[0] == '#') continue;` and then
the extraction of `u` and `v`.  `none` means the line contributes nothing. -/
def parseLine (line : List Char) : Option (Int × Int) :=
  match line with
  | [] => none
  | c :: _ => if c = '#' then none else parsePair line

/-- The lines delivered by repeated `std::getline(file, line)`: the text between newline
characters; a final line without a trailing newline is delivered, an empty tail is not. -/
def getlines : List Char → List (List Char)
  | [] => []
  | c :: cs =>
    if c = '\n' then [] :: getlines cs
    else
      match getlines cs with
      | [] => [[c]]
      | l :: ls => (c :: l) :: ls

/-- The edges `(u, v)` read by one pass over the lines, in file order. -/
def parsedEdges (lines : List (List Char)) : List (Int × Int) :=
  lines.filterMap parseLine

/-! ## The identifier map (`std::map<int,int>`) -/

/-- The lookup `id_map.find(k)`: the value stored under `k`, if any. -/
def mapFind : List (Int × Nat) → Int → Option Nat
  | [], _ => none
  | (k', v') :: t, k => if k = k' then some v' else mapFind t k

/-- The assignment `id_map[k] = v`: insert in key order, or overwrite the value of an
existing key. -/
def mapSet : List (Int × Nat) → Int → Nat → List (Int × Nat)
  | [], k, v => [(k, v)]
  | (k', v') :: t, k, v =>
    if k < k' then (k, v) :: (k', v') :: t
    else if k = k' then (k, v) :: t
    else (k', v') :: mapSet t k v

/-- Reading `id_map[k]`: `operator[]` inserts a value-initialised entry (`0`) when the key is
absent and returns the stored value together with the updated map. -/
def mapIndex (m : List (Int × Nat)) (k : Int) : Nat × List (Int × Nat) :=
  match mapFind m k with
  | some v => (v, m)
  | none => (0, mapSet m k 0)

/-- The step `if (id_map.find(x) == id_map.end()) id_map[x] = id_map.size();`. -/
def assignId (m : List (Int × Nat)) (x : Int) : List (Int × Nat) :=
  match mapFind m x with
  | some _ => m
  | none => mapSet m x m.length

/-- Pass 1 over the lines: count the edges and assign internal ids to both endpoints. -/
def pass1 : List (List Char) → Nat × List (Int × Nat) → Nat × List (Int × Nat)
  | [], st => st
  | line :: rest, (edge_count, id_map) =>
    match parseLine line with
    | none => pass1 rest (edge_count, id_map)
    | some (u, v) => pass1 rest (edge_count + 1, assignId (assignId id_map u) v)

/-! ## CSR assembly -/

/-- The temporary `struct Edge` of internal ids. -/
structure Edge where
  u : Nat
  v : Nat
  deriving DecidableEq, Repr

/-- The comparison `Edge::operator<`: by source, then by destination. -/
def Edge.lt (a b : Edge) : Prop :=
  if a.u ≠ b.u then a.u < b.u else a.v < b.v

instance : DecidableRel Edge.lt := fun a b => by
  unfold Edge.lt; exact inferInstance

/-- The non-strict order induced by `operator<`: `a` may precede `b` in sorted output. -/
def Edge.le (a b : Edge) : Prop := ¬ Edge.lt b a

instance : DecidableRel Edge.le := fun a b => by
  unfold Edge.le; exact inferInstance

/-- Pass 2 over the lines: translate each parsed edge through `id_map[...]` and store it in
`edge_list[idx++]`; the list argument holds the cells `edge_list[0 .. idx)` written so far. -/
def pass2 : List (List Char) → List (Int × Nat) → List Edge → List (Int × Nat) × List Edge
  | [], id_map, edge_list => (id_map, edge_list)
  | line :: rest, id_map, edge_list =>
    match parseLine line with
    | none => pass2 rest id_map edge_list
    | some (u, v) =>
      let ru := mapIndex id_map u
      let rv := mapIndex ru.2 v
      pass2 rest rv.2 (edge_list ++ [⟨ru.1, rv.1⟩])

/-- The loop `for (auto const &[key, val] : id_map) reverse_map[val] = key;`. -/
def buildReverse (id_map : List (Int × Nat)) (reverse_map : List Int) : List Int :=
  id_map.foldl (fun r kv => r.set kv.2 kv.1) reverse_map

/-- The loop `while (current_row < u) { current_row++; row_ptr[current_row] = i; }`, which runs
`u - current_row` times (`k` counts the remaining iterations). -/
def fillRowsN : Nat → List Nat → Nat → Nat → List Nat × Nat
  | 0, row_ptr, current_row, _ => (row_ptr, current_row)
  | k + 1, row_ptr, current_row, i =>
    fillRowsN k (row_ptr.set (current_row + 1) i) (current_row + 1) i

/-- Advance `current_row` to `u`, storing `i` in every row offset passed on the way. -/
def fillRows (row_ptr : List Nat) (current_row u i : Nat) : List Nat × Nat :=
  fillRowsN (u - current_row) row_ptr current_row i

/-- The local state of the CSR walk. -/
structure Csr where
  row_ptr : List Nat
  col_indices : List Nat
  values : List Nat
  current_row : Nat

/-- The walk `for (i = 0; i < num_edges; ++i)` over the sorted edge list, which has exactly
`num_edges` entries (`i` is the index of the head of the remaining edges). -/
def csrWalk : List Edge → Nat → Csr → Csr
  | [], _, s => s
  | e :: es, i, s =>
    let f := fillRows s.row_ptr s.current_row e.u i
    csrWalk es (i + 1)
      { row_ptr := f.1, current_row := f.2,
        col_indices := s.col_indices.set i e.v, values := s.values.set i 1 }

/-! ## The graph object -/

/-- The data members of `SparseGraph` (null pointers are empty arrays). -/
structure SparseGraph where
  values : List Nat
  col_indices : List Nat
  row_ptr : List Nat
  num_nodes : Nat
  num_edges : Nat
  id_map : List (Int × Nat)
  reverse_map : List Int

/-- The constructor `SparseGraph::SparseGraph()`. -/
def SparseGraph.new : SparseGraph :=
  { values := [], col_indices := [], row_ptr := [], num_nodes := 0, num_edges := 0,
    id_map := [], reverse_map := [] }

/-- The part of `loadFromFile` that follows a successful open, on the lines of the file.
`std::sort` is rendered by an insertion sort: `operator<` is a strict total order on
`(u, v)` and edges that compare equal are identical, so the sorted array is unique. -/
def loadLines (g : SparseGraph) (lines : List (List Char)) : SparseGraph :=
  let p1 := pass1 lines (0, g.id_map)
  let num_nodes := p1.2.length
  let num_edges := p1.1
  let reverse_map := buildReverse p1.2 (List.replicate num_nodes 0)
  let p2 := pass2 lines p1.2 []
  let edge_list := List.insertionSort Edge.le p2.2
  let s0 : Csr :=
    { row_ptr := List.replicate (num_nodes + 1) 0, col_indices := List.replicate num_edges 0,
      values := List.replicate num_edges 0, current_row := 0 }
  let s1 := csrWalk edge_list 0 s0
  let f := fillRows s1.row_ptr s1.current_row num_nodes num_edges
  { values := s1.values, col_indices := s1.col_indices,
    row_ptr := f.1.set num_nodes num_edges,
    num_nodes := num_nodes, num_edges := num_edges,
    id_map := p2.1, reverse_map := reverse_map }

/-- The method `SparseGraph::loadFromFile`: an unopenable file leaves the object untouched. -/
def SparseGraph.loadFromFile (g : SparseGraph) (file : Option (List Char)) : SparseGraph :=
  match file with
  | none => g
  | some content => loadLines g (getlines content)

/-- The accessor `getNumNodes()`. -/
def SparseGraph.getNumNodes (g : SparseGraph) : Int := g.num_nodes

/-- The accessor `getNumEdges()`. -/
def SparseGraph.getNumEdges (g : SparseGraph) : Int := g.num_edges

/-- The method `SparseGraph::getInternalId`. -/
def SparseGraph.getInternalId (g : SparseGraph) (externalId : Int) : Int :=
  match mapFind g.id_map externalId with
  | some i => (i : Int)
  | none => -1

/-- The method `SparseGraph::getExternalId`. -/
def SparseGraph.getExternalId (g : SparseGraph) (internalId : Int) : Int :=
  if 0 ≤ internalId ∧ internalId < g.num_nodes then g.reverse_map.getD internalId.toNat 0
  else -1

/-- The method `SparseGraph::getDegree`. -/
def SparseGraph.getDegree (g : SparseGraph) (nodeExt : Int) : Int :=
  let u := g.getInternalId nodeExt
  if u = -1 then 0
  else (g.row_ptr.getD (u.toNat + 1) 0 : Int) - (g.row_ptr.getD u.toNat 0 : Int)

/-- The method `SparseGraph::getMaxDegreeNode`: the scan keeps `(max_deg, max_node)`. -/
def SparseGraph.getMaxDegreeNode (g : SparseGraph) : Int :=
  let scan : Int × Int :=
    (List.range g.num_nodes).foldl
      (fun (acc : Int × Int) i =>
        let deg : Int := (g.row_ptr.getD (i + 1) 0 : Int) - (g.row_ptr.getD i 0 : Int)
        if deg > acc.1 then (deg, (i : Int)) else acc)
      (-1, -1)
  g.getExternalId scan.2

/-- The method `SparseGraph::getNeighbors`. -/
def SparseGraph.getNeighbors (g : SparseGraph) (nodeExt : Int) : List Int :=
  let u := g.getInternalId nodeExt
  if u = -1 then []
  else
    let start_idx := g.row_ptr.getD u.toNat 0
    let end_idx := g.row_ptr.getD (u.toNat + 1) 0
    (List.range' start_idx (end_idx - start_idx)).foldl
      (fun neighbors i => neighbors ++ [g.getExternalId (g.col_indices.getD i 0 : Nat)])
      []

/-! ## Bounded breadth-first search -/

/-- The local state of `bfs`. -/
structure Bfs where
  queue_nodes : List Nat
  queue_depths : List Int
  head : Nat
  tail : Nat
  visited : List Bool
  visited_ext : List Int

/-- The body of the `for` loop over the outgoing edges of the dequeued node, at index `i`. -/
def bfsVisit (g : SparseGraph) (d : Int) (s : Bfs) (i : Nat) : Bfs :=
  let v := g.col_indices.getD i 0
  if s.visited.getD v false then s
  else
    { s with
      visited := s.visited.set v true
      visited_ext := s.visited_ext ++ [g.getExternalId (v : Nat)]
      queue_nodes := s.queue_nodes.set s.tail v
      queue_depths := s.queue_depths.set s.tail (d + 1)
      tail := s.tail + 1 }

/-- One iteration of `while (head < tail)`: dequeue and, below the depth bound, expand. -/
def bfsStep (g : SparseGraph) (maxDepth : Int) (s : Bfs) : Bfs :=
  let u := s.queue_nodes.getD s.head 0
  let d := s.queue_depths.getD s.head 0
  let s1 := { s with head := s.head + 1 }
  if d ≥ maxDepth then s1
  else
    let start_idx := g.row_ptr.getD u 0
    let end_idx := g.row_ptr.getD (u + 1) 0
    (List.range' start_idx (end_idx - start_idx)).foldl (bfsVisit g d) s1

/-- The loop `while (head < tail)`, limited to `fuel` iterations; `none` when the loop is
still running after `fuel` iterations. -/
def bfsLoop (g : SparseGraph) (maxDepth : Int) : Nat → Bfs → Option Bfs
  | 0, s => if s.head < s.tail then none else some s
  | fuel + 1, s =>
    if s.head < s.tail then bfsLoop g maxDepth fuel (bfsStep g maxDepth s) else some s

/-- The method `SparseGraph::bfs` run for at most `fuel` iterations of its main loop. -/
def SparseGraph.bfsFuel (g : SparseGraph) (fuel : Nat) (startNodeExt maxDepth : Int) :
    Option (List Int) :=
  let startNode := g.getInternalId startNodeExt
  if startNode = -1 then some []
  else
    let s0 : Bfs :=
      { queue_nodes := (List.replicate g.num_nodes 0).set 0 startNode.toNat
        queue_depths := (List.replicate g.num_nodes 0).set 0 0
        head := 0
        tail := 1
        visited := (List.replicate g.num_nodes false).set startNode.toNat true
        visited_ext := [startNodeExt] }
    (bfsLoop g maxDepth fuel s0).map (fun s => s.visited_ext)

/-- The method `SparseGraph::bfs`; the main loop dequeues one entry of a queue of capacity `num_nodes`
per iteration, so `num_nodes` iterations are allowed (`none`: not finished by then). -/
def SparseGraph.bfs (g : SparseGraph) (startNodeExt maxDepth : Int) : Option (List Int) :=
  g.bfsFuel g.num_nodes startNodeExt maxDepth

/-- A fresh graph object loaded from the file contents `content`. -/
def load (content : List Char) : SparseGraph :=
  SparseGraph.new.loadFromFile (some content)

/-! ## Specification-side notions and proof invariants -/

/-- The endpoints of the edges in file order, source then destination of each edge. -/
def endpoints (es : List (Int × Int)) : List Int :=
  es.flatMap (fun e => [e.1, e.2])

/-- Keep only the first occurrence of every element. -/
def firstOcc : List Int → List Int
  | [] => []
  | x :: xs => x :: (firstOcc xs).filter (fun y => y ≠ x)

/-- Append `x` to the list of known ids unless it is already there. -/
def addNew (ks : List Int) (x : Int) : List Int :=
  if x ∈ ks then ks else ks ++ [x]

/-- The invariant tying `id_map` to the list `ks` of ids in order of first appearance:
`id_map` holds exactly the pairs `(ks[i], i)`. -/
def IdInv (m : List (Int × Nat)) (ks : List Int) : Prop :=
  m.Perm (ks.zip (List.range ks.length)) ∧ ks.Nodup

/-- The internal id of an external id known to `id_map` (`0` otherwise). -/
def idOf (m : List (Int × Nat)) (x : Int) : Nat :=
  (mapFind m x).getD 0

/-- The edge of internal ids corresponding to a parsed edge. -/
def toEdge (m : List (Int × Nat)) (e : Int × Int) : Edge :=
  ⟨idOf m e.1, idOf m e.2⟩

/-- The edge list after `std::sort`. -/
def sortedEdges (m : List (Int × Nat)) (es : List (Int × Int)) : List Edge :=
  List.insertionSort Edge.le (es.map (toEdge m))

/-- The number of edges of `l` whose source precedes row `r`. -/
def before (l : List Edge) (r : Nat) : Nat :=
  l.countP (fun e => decide (e.u < r))

/-- The invariant of the CSR walk after the edges `done` have been stored. -/
structure WalkInv (n : Nat) (done : List Edge) (s : Csr) : Prop where
  len : s.row_ptr.length = n + 1
  cur_le : s.current_row ≤ n
  done_le : ∀ e ∈ done, e.u ≤ s.current_row
  rp : ∀ r, r ≤ s.current_row → s.row_ptr[r]? = some (before done r)

/-- The identifier map after pass 1 over the edges `es`, starting from an empty map. -/
def idMapOf (es : List (Int × Int)) : List (Int × Nat) :=
  (endpoints es).foldl assignId []

/-- The summary of a graph loaded from a file whose parsed edges are `es`. -/
structure LoadSpec (es : List (Int × Int)) (g : SparseGraph) : Prop where
  idinv : IdInv g.id_map (firstOcc (endpoints es))
  id_map_eq : g.id_map = idMapOf es
  nodes : g.num_nodes = (firstOcc (endpoints es)).length
  edges : g.num_edges = es.length
  rev : g.reverse_map = firstOcc (endpoints es)
  col : g.col_indices = (sortedEdges g.id_map es).map (fun e => e.v)
  vals : g.values = List.replicate es.length 1
  rp_len : g.row_ptr.length = g.num_nodes + 1
  rp : ∀ r, r ≤ g.num_nodes → g.row_ptr[r]? = some (before (sortedEdges g.id_map es) r)

/-- The slice of `col_indices` holding the successors of internal node `u`. -/
def SparseGraph.adj (g : SparseGraph) (u : Nat) : List Nat :=
  (g.col_indices.drop (g.row_ptr.getD u 0)).take (g.row_ptr.getD (u + 1) 0 - g.row_ptr.getD u 0)

/-- The out-degree `row_ptr[i + 1] - row_ptr[i]` of internal node `i`, as computed by the
queries. -/
def SparseGraph.rowDegree (g : SparseGraph) (i : Nat) : Int :=
  (g.row_ptr.getD (i + 1) 0 : Int) - (g.row_ptr.getD i 0 : Int)

/-- The state `(max_deg, max_node)` of the scan of `getMaxDegreeNode` after `n` rows. -/
def SparseGraph.maxScan (g : SparseGraph) (n : Nat) : Int × Int :=
  (List.range n).foldl
    (fun (acc : Int × Int) i =>
      let deg : Int := (g.row_ptr.getD (i + 1) 0 : Int) - (g.row_ptr.getD i 0 : Int)
      if deg > acc.1 then (deg, (i : Int)) else acc)
    (-1, -1)

/-- The abstract effect of visiting the edge to `v` from a node of depth `d`: the queue,
seen as the list of `(node, depth)` entries pushed so far, gains `(v, d + 1)` unless `v` is
already in it. -/
def absVisit (d : Int) (Q : List (Nat × Int)) (v : Nat) : List (Nat × Int) :=
  if v ∈ Q.map Prod.fst then Q else Q ++ [(v, d + 1)]

/-- The abstract effect of one iteration of the main loop with the queue head at index `h`. -/
def absExpand (g : SparseGraph) (maxDepth : Int) (Q : List (Nat × Int)) (h : Nat) :
    List (Nat × Int) :=
  match Q[h]? with
  | none => Q
  | some (u, d) => if d ≥ maxDepth then Q else (g.adj u).foldl (absVisit d) Q

/-- The concrete state `s` of `bfs` represents the queue contents `Q`. -/
structure Rep (g : SparseGraph) (s : Bfs) (Q : List (Nat × Int)) : Prop where
  qn_len : s.queue_nodes.length = g.num_nodes
  qd_len : s.queue_depths.length = g.num_nodes
  vis_len : s.visited.length = g.num_nodes
  tail_eq : s.tail = Q.length
  qn_eq : s.queue_nodes.take s.tail = Q.map Prod.fst
  qd_eq : s.queue_depths.take s.tail = Q.map Prod.snd
  nodup : (Q.map Prod.fst).Nodup
  bound : ∀ v, v ∈ Q.map Prod.fst → v < g.num_nodes
  vis : ∀ v, v < g.num_nodes → (s.visited.getD v false = true ↔ v ∈ Q.map Prod.fst)
  ext : s.visited_ext = Q.map (fun p => g.getExternalId (p.1 : Int))

/-- Directed paths: `Walk E a b k` says that `k` edges of `E` lead from `a` to `b`. -/
inductive Walk {α : Type} (E : α → α → Prop) (a : α) : α → Nat → Prop
  | refl : Walk E a a 0
  | step {b c : α} {k : Nat} : Walk E a b k → E b c → Walk E a c (k + 1)

/-- The invariant of the main loop on the queue contents `Q` with the head at index `h`. -/
structure AInv (g : SparseGraph) (start : Nat) (maxDepth : Int) (Q : List (Nat × Int))
    (h : Nat) : Prop where
  head_le : h ≤ Q.length
  start0 : Q[0]? = some (start, 0)
  walk : ∀ p, p ∈ Q → ∃ k : Nat, p.2 = (k : Int) ∧
    Walk (fun a b => b ∈ g.adj a) start p.1 k ∧ (k = 0 ∨ (k : Int) ≤ maxDepth)
  sorted : Q.Pairwise (fun a b => a.2 ≤ b.2)
  near : ∀ p, p ∈ Q → ∀ q, q ∈ Q.drop h → p.2 ≤ q.2 + 1
  closed : ∀ p, p ∈ Q.take h → p.2 < maxDepth → ∀ w, w ∈ g.adj p.1 →
    ∃ q, q ∈ Q ∧ q.1 = w ∧ q.2 ≤ p.2 + 1

/-- The maximal runs of non-whitespace characters of a line (`cur` is the run being read,
reversed). -/
def whitespaceTokens : List Char → List Char → List (List Char)
  | [], cur => if cur.isEmpty then [] else [cur.reverse]
  | c :: cs, cur =>
    if isspace c then
      if cur.isEmpty then whitespaceTokens cs [] else cur.reverse :: whitespaceTokens cs []
    else whitespaceTokens cs (c :: cur)

/-- A token that is a decimal integer: an optional sign followed by one or more digits and
nothing else. -/
def isIntegerToken (t : List Char) : Bool :=
  match t with
  | '-' :: ds => !ds.isEmpty && ds.all isdigit
  | '+' :: ds => !ds.isEmpty && ds.all isdigit
  | ds => !ds.isEmpty && ds.all isdigit

/-- The wording of the specification, "the line parses as exactly two whitespace-separated
integers": the line has exactly two tokens and both are integers. -/
def specTwoIntegers (line : List Char) : Bool :=
  match whitespaceTokens line [] with
  | [a, b] => isIntegerToken a && isIntegerToken b
  | _ => false

/-- Shortest-path distance: `k` edges of `E` lead from `a` to `b` and no walk from `a` to `b`
is shorter. -/
def IsDist {α : Type} (E : α → α → Prop) (a b : α) (k : Nat) : Prop :=
  Walk E a b k ∧ ∀ k', Walk E a b k' → k ≤ k'

/-- The array accesses of the body of the `for` loop of `bfs` at index `i` are in bounds:
`col_indices[i]` within the `num_edges` cells of `col_indices`, `visited[v]` within the
`num_nodes` cells of `visited` and, when `v` is enqueued, `queue_nodes[tail]` and
`queue_depths[tail]` within the `num_nodes` cells of the queue arrays. -/
def visitInBounds (g : SparseGraph) (s : Bfs) (i : Nat) : Bool :=
  decide (i < g.num_edges) && decide (g.col_indices.getD i 0 < g.num_nodes) &&
    (s.visited.getD (g.col_indices.getD i 0) false || decide (s.tail < g.num_nodes))

/-- The `for` loop of `bfs` over the indices `is` with every array access checked: `none` as
soon as an access is out of bounds. -/
def bfsVisitAllChecked (g : SparseGraph) (d : Int) : List Nat → Bfs → Option Bfs
  | [], s => some s
  | i :: is, s =>
    if visitInBounds g s i then bfsVisitAllChecked g d is (bfsVisit g d s i) else none

/-- One iteration of the main loop of `bfs` with every array access checked: the reads
`queue_nodes[head]` and `queue_depths[head]` (arrays of `num_nodes` cells), the reads
`row_ptr[u]` and `row_ptr[u + 1]` (array of `num_nodes + 1` cells) and the accesses of the
inner loop. -/
def bfsStepChecked (g : SparseGraph) (maxDepth : Int) (s : Bfs) : Option Bfs :=
  if s.head < g.num_nodes then
    let u := s.queue_nodes.getD s.head 0
    let d := s.queue_depths.getD s.head 0
    let s1 := { s with head := s.head + 1 }
    if d ≥ maxDepth then some s1
    else if u + 1 < g.num_nodes + 1 then
      let start_idx := g.row_ptr.getD u 0
      let end_idx := g.row_ptr.getD (u + 1) 0
      bfsVisitAllChecked g d (List.range' start_idx (end_idx - start_idx)) s1
    else none
  else none

/-- The main loop of `bfs` with every array access checked, limited to `fuel` iterations;
`none` when an access is out of bounds or the loop is still running after `fuel`
iterations. -/
def bfsLoopChecked (g : SparseGraph) (maxDepth : Int) : Nat → Bfs → Option Bfs
  | 0, s => if s.head < s.tail then none else some s
  | fuel + 1, s =>
    if s.head < s.tail then
      match bfsStepChecked g maxDepth s with
      | none => none
      | some s' => bfsLoopChecked g maxDepth fuel s'
    else some s

/-- The method `SparseGraph::bfs` with every array access checked, including the initial
writes `queue_nodes[0]`, `queue_depths[0]` and `visited[startNode]`. -/
def SparseGraph.bfsChecked (g : SparseGraph) (startNodeExt maxDepth : Int) :
    Option (List Int) :=
  let startNode := g.getInternalId startNodeExt
  if startNode = -1 then some []
  else if 0 < g.num_nodes ∧ 0 ≤ startNode ∧ startNode.toNat < g.num_nodes then
    let s0 : Bfs :=
      { queue_nodes := (List.replicate g.num_nodes 0).set 0 startNode.toNat
        queue_depths := (List.replicate g.num_nodes 0).set 0 0
        head := 0
        tail := 1
        visited := (List.replicate g.num_nodes false).set startNode.toNat true
        visited_ext := [startNodeExt] }
    (bfsLoopChecked g maxDepth g.num_nodes s0).map (fun s => s.visited_ext)
  else none

/-- The abstract run of the main loop on the queue contents `Q` from head index `h`, for at
most `fuel` iterations. -/
def absLoop (g : SparseGraph) (maxDepth : Int) : Nat → List (Nat × Int) → Nat → List (Nat × Int)
  | 0, Q, _ => Q
  | fuel + 1, Q, h =>
    if h < Q.length then absLoop g maxDepth fuel (absExpand g maxDepth Q h) (h + 1) else Q

/-- The number denoted by a run of decimal digits read as text, most significant digit
first. -/
def decimalValue (ds : List Char) : Nat :=
  Nat.ofDigits 10 (ds.reverse.map (fun c => c.toNat - 48))

/-- The text `t` is written as an integer: an optional sign `sign` (`+` or `-`) followed by
the non-empty run of decimal digits `ds`. -/
def SignedDigits (t sign ds : List Char) : Prop :=
  t = sign ++ ds ∧ (sign = [] ∨ sign = ['+'] ∨ sign = ['-']) ∧ ds ≠ [] ∧
    ∀ c, c ∈ ds → isdigit c = true

/-- The integer written as the sign `sign` followed by the digits `ds`. -/
def signedValue (sign ds : List Char) : Int :=
  if sign = ['-'] then -(decimalValue ds : Int) else (decimalValue ds : Int)

/-- The text `t` is an integer literal denoting `n`, and `n` fits a C `int`. -/
def IntLiteral (t : List Char) (n : Int) : Prop :=
  ∃ sign ds, SignedDigits t sign ds ∧ n = signedValue sign ds ∧ INT_MIN ≤ n ∧ n ≤ INT_MAX

/-- The line begins with the two integers `u` and `v`: optional whitespace `w1`, the integer
literal `t1`, optional whitespace `w2`, the integer literal `t2` (which starts with its sign
when no whitespace separates it from `t1`), and then any text `rest` that does not continue
the digits of `t2`. -/
def BeginsWithTwoInts (line : List Char) (u v : Int) : Prop :=
  ∃ w1 t1 w2 t2 rest, line = w1 ++ t1 ++ w2 ++ t2 ++ rest ∧
    (∀ c, c ∈ w1 → isspace c = true) ∧ (∀ c, c ∈ w2 → isspace c = true) ∧
    IntLiteral t1 u ∧ IntLiteral t2 v ∧
    (w2 = [] → ∃ c cs, t2 = c :: cs ∧ (c = '+' ∨ c = '-')) ∧
    (∀ c cs, rest = c :: cs → isdigit c = false)

/-- The part of the extraction of an `int` that follows the optional sign: the digits of
`body` are read and the value, negated when `neg`, is range-checked. -/
def extractBody (neg : Bool) (body : List Char) : Option (Int × List Char) :=
  if (body.takeWhile isdigit).isEmpty then none
  else
    if (if neg then -((digitsVal (body.takeWhile isdigit) 0 : Nat) : Int)
        else ((digitsVal (body.takeWhile isdigit) 0 : Nat) : Int)) < INT_MIN ∨
       INT_MAX < (if neg then -((digitsVal (body.takeWhile isdigit) 0 : Nat) : Int)
        else ((digitsVal (body.takeWhile isdigit) 0 : Nat) : Int))
    then none
    else some ((if neg then -((digitsVal (body.takeWhile isdigit) 0 : Nat) : Int)
        else ((digitsVal (body.takeWhile isdigit) 0 : Nat) : Int)), body.dropWhile isdigit)

/-! ## The identifier map: lemmas -/

theorem mapFind_mapSet (m : List (Int × Nat)) (k x : Int) (v : Nat) :
    mapFind (mapSet m k v) x = if x = k then some v else mapFind m x := by
  induction m with
  | nil => simp [mapSet, mapFind]
  | cons p t ih =>
    obtain ⟨k', v'⟩ := p
    by_cases h1 : k < k'
    · simp [mapSet, mapFind, h1]
    · by_cases h2 : k = k'
      · subst h2
        simp only [mapSet, h1, mapFind, if_false, if_true]
        by_cases hx : x = k <;> simp [hx]
      · simp only [mapSet, h1, h2, mapFind, if_false, ih]
        by_cases hx : x = k
        · subst hx; simp [h2]
        · simp [hx]

theorem mapFind_none_iff (m : List (Int × Nat)) (k : Int) :
    mapFind m k = none ↔ k ∉ m.map Prod.fst := by
  induction m with
  | nil => simp [mapFind]
  | cons p t ih =>
    obtain ⟨k', v'⟩ := p
    by_cases h : k = k'
    · simp [mapFind, h]
    · simp [mapFind, h, ih]

theorem mapFind_some_iff (m : List (Int × Nat)) (hm : (m.map Prod.fst).Nodup) (k : Int)
    (v : Nat) : mapFind m k = some v ↔ (k, v) ∈ m := by
  induction m with
  | nil => simp [mapFind]
  | cons p t ih =>
    obtain ⟨k', v'⟩ := p
    simp only [List.map_cons, List.nodup_cons] at hm
    by_cases h : k = k'
    · subst h
      simp only [mapFind, if_true, Option.some.injEq, List.mem_cons, Prod.mk.injEq, true_and]
      constructor
      · intro h; exact Or.inl h.symm
      · rintro (h | h)
        · exact h.symm
        · exact absurd (List.mem_map_of_mem Prod.fst h) hm.1
    · simp [mapFind, h, ih hm.2]

theorem mapSet_perm (m : List (Int × Nat)) (k : Int) (v : Nat) (h : mapFind m k = none) :
    (mapSet m k v).Perm (m ++ [(k, v)]) := by
  induction m with
  | nil => simp [mapSet]
  | cons p t ih =>
    obtain ⟨k', v'⟩ := p
    have hk : k ≠ k' := by
      intro e; simp [mapFind, e] at h
    have ht : mapFind t k = none := by simpa [mapFind, hk] using h
    by_cases h1 : k < k'
    · simp only [mapSet, h1, if_true]
      exact (List.perm_append_singleton _ _).symm
    · simp only [mapSet, h1, hk, if_false, List.cons_append]
      exact List.Perm.cons _ (ih ht)

theorem mem_zip_range {ks : List Int} {x : Int} {i : Nat} :
    (x, i) ∈ ks.zip (List.range ks.length) ↔ ks[i]? = some x := by
  rw [List.mem_iff_getElem?]
  constructor
  · rintro ⟨n, hn⟩
    rw [List.getElem?_zip_eq_some] at hn
    obtain ⟨h1, h2⟩ := hn
    simp only at h1 h2
    have hlt : n < ks.length := by
      rcases Nat.lt_or_ge n ks.length with h | h
      · exact h
      · rw [List.getElem?_eq_none (by simpa using h)] at h1; cases h1
    have h3 : (List.range ks.length)[n]? = some n := List.getElem?_range hlt
    rw [h3] at h2
    cases h2
    exact h1
  · intro h
    have hlt : i < ks.length := by
      rcases Nat.lt_or_ge i ks.length with h' | h'
      · exact h'
      · rw [List.getElem?_eq_none h'] at h; cases h
    exact ⟨i, List.getElem?_zip_eq_some.mpr ⟨h, List.getElem?_range hlt⟩⟩

theorem zip_range_fst (ks : List Int) :
    (ks.zip (List.range ks.length)).map Prod.fst = ks := by
  rw [List.map_fst_zip]
  simp

theorem zip_range_snd (ks : List Int) :
    (ks.zip (List.range ks.length)).map Prod.snd = List.range ks.length := by
  rw [List.map_snd_zip]
  simp

theorem IdInv.nil : IdInv [] [] := by
  simp [IdInv]

theorem IdInv.length {m ks} (h : IdInv m ks) : m.length = ks.length := by
  have := h.1.length_eq
  simpa using this

theorem IdInv.keys_perm {m ks} (h : IdInv m ks) : (m.map Prod.fst).Perm ks := by
  have := h.1.map Prod.fst
  rwa [zip_range_fst] at this

theorem IdInv.keys_nodup {m ks} (h : IdInv m ks) : (m.map Prod.fst).Nodup :=
  (h.keys_perm.nodup_iff).mpr h.2

theorem IdInv.vals_perm {m ks} (h : IdInv m ks) :
    (m.map Prod.snd).Perm (List.range ks.length) := by
  have := h.1.map Prod.snd
  rwa [zip_range_snd] at this

theorem IdInv.find_some {m ks} (h : IdInv m ks) (x : Int) (i : Nat) :
    mapFind m x = some i ↔ ks[i]? = some x := by
  rw [mapFind_some_iff m h.keys_nodup, h.1.mem_iff, mem_zip_range]

theorem IdInv.find_none {m ks} (h : IdInv m ks) (x : Int) :
    mapFind m x = none ↔ x ∉ ks := by
  rw [mapFind_none_iff, h.keys_perm.mem_iff]

theorem IdInv.find_lt {m ks} (h : IdInv m ks) {x : Int} {i : Nat}
    (hf : mapFind m x = some i) : i < ks.length := by
  rw [h.find_some] at hf
  rcases Nat.lt_or_ge i ks.length with h' | h'
  · exact h'
  · rw [List.getElem?_eq_none h'] at hf; cases hf

theorem IdInv.find_isSome {m ks} (h : IdInv m ks) {x : Int} (hx : x ∈ ks) :
    ∃ i, mapFind m x = some i := by
  cases hf : mapFind m x with
  | none => exact absurd hx ((h.find_none x).mp hf)
  | some i => exact ⟨i, rfl⟩

theorem IdInv.assignId {m ks} (h : IdInv m ks) (x : Int) :
    IdInv (assignId m x) (addNew ks x) := by
  unfold NeuroNet.assignId addNew
  cases hf : mapFind m x with
  | some i =>
    have hx : x ∈ ks := by
      by_contra hx
      rw [(h.find_none x).mpr hx] at hf; cases hf
    simpa [hx] using h
  | none =>
    have hx : x ∉ ks := (h.find_none x).mp hf
    simp only [hx, if_false]
    refine ⟨?_, ?_⟩
    · refine (mapSet_perm m x m.length hf).trans ?_
      rw [List.length_append, List.length_singleton, List.range_succ,
        List.zip_append (by simp), h.length]
      exact List.Perm.append_right _ h.1
    · rw [List.nodup_append]
      refine ⟨h.2, List.nodup_singleton x, ?_⟩
      intro a ha hb
      simp only [List.mem_singleton] at hb
      subst hb
      exact hx ha

theorem IdInv.foldl {m ks} (h : IdInv m ks) (xs : List Int) :
    IdInv (xs.foldl NeuroNet.assignId m) (xs.foldl addNew ks) := by
  induction xs generalizing m ks with
  | nil => exact h
  | cons x xs ih => exact ih (h.assignId x)

theorem mapIndex_of_find {m : List (Int × Nat)} {x : Int} {i : Nat}
    (h : mapFind m x = some i) : mapIndex m x = (i, m) := by
  simp [mapIndex, h]

/-! ## First-appearance order -/

theorem mem_foldl_addNew (xs ks : List Int) (y : Int) :
    y ∈ xs.foldl addNew ks ↔ y ∈ ks ∨ y ∈ xs := by
  induction xs generalizing ks with
  | nil => simp
  | cons x xs ih =>
    rw [List.foldl_cons, ih]
    unfold addNew
    by_cases hx : x ∈ ks
    · simp only [hx, if_true, List.mem_cons]
      constructor
      · rintro (h | h)
        · exact Or.inl h
        · exact Or.inr (Or.inr h)
      · rintro (h | h | h)
        · exact Or.inl h
        · subst h; exact Or.inl hx
        · exact Or.inr h
    · simp only [hx, if_false, List.mem_append, List.mem_singleton, List.mem_cons]
      tauto

theorem foldl_addNew_eq (xs ks : List Int) :
    xs.foldl addNew ks = ks ++ (firstOcc xs).filter (fun y => decide (y ∉ ks)) := by
  induction xs generalizing ks with
  | nil => simp [firstOcc]
  | cons x xs ih =>
    rw [List.foldl_cons, ih]
    unfold addNew
    by_cases hx : x ∈ ks
    · simp only [hx, if_true, firstOcc, List.filter_cons, not_true_eq_false, decide_False,
        Bool.false_eq_true, if_false, List.filter_filter]
      congr 1
      apply List.filter_congr
      intro y _
      by_cases hy : y ∈ ks
      · simp [hy]
      · have : y ≠ x := fun e => hy (e ▸ hx)
        simp [hy, this]
    · simp only [hx, if_false, firstOcc, List.filter_cons, not_false_eq_true, decide_True,
        if_true, List.filter_filter, List.append_assoc, List.singleton_append]
      congr 2
      apply List.filter_congr
      intro y _
      by_cases hy : y ∈ ks <;> by_cases hyx : y = x <;> simp [hy, hyx]

theorem foldl_addNew_nil (xs : List Int) : xs.foldl addNew [] = firstOcc xs := by
  rw [foldl_addNew_eq]
  simp

theorem mem_firstOcc (xs : List Int) (y : Int) : y ∈ firstOcc xs ↔ y ∈ xs := by
  rw [← foldl_addNew_nil, mem_foldl_addNew]
  simp

theorem nodup_firstOcc (xs : List Int) : (firstOcc xs).Nodup := by
  rw [← foldl_addNew_nil]
  exact (IdInv.nil.foldl xs).2

/-! ## The two passes in terms of the parsed edges -/

theorem pass1_eq (lines : List (List Char)) (c : Nat) (m : List (Int × Nat)) :
    pass1 lines (c, m) =
      (c + (parsedEdges lines).length, (endpoints (parsedEdges lines)).foldl assignId m) := by
  induction lines generalizing c m with
  | nil => simp [pass1, parsedEdges, endpoints]
  | cons line rest ih =>
    unfold pass1
    cases hp : parseLine line with
    | none =>
      simp only [ih]
      simp [parsedEdges, List.filterMap_cons, hp]
    | some e =>
      obtain ⟨u, v⟩ := e
      simp only [ih]
      simp only [parsedEdges, List.filterMap_cons, hp, endpoints, List.flatMap_cons,
        List.length_cons, List.cons_append, List.nil_append, List.foldl_cons, Prod.mk.injEq,
        and_true]
      omega

theorem pass2_eq (lines : List (List Char)) (m : List (Int × Nat)) (acc : List Edge)
    (h : ∀ x ∈ endpoints (parsedEdges lines), ∃ i, mapFind m x = some i) :
    pass2 lines m acc = (m, acc ++ (parsedEdges lines).map (toEdge m)) := by
  induction lines generalizing acc with
  | nil => simp [pass2, parsedEdges]
  | cons line rest ih =>
    unfold pass2
    cases hp : parseLine line with
    | none =>
      have h' : ∀ x ∈ endpoints (parsedEdges rest), ∃ i, mapFind m x = some i := by
        intro x hx; apply h
        simpa [parsedEdges, List.filterMap_cons, hp] using hx
      simp only [ih acc h']
      simp [parsedEdges, List.filterMap_cons, hp]
    | some e =>
      obtain ⟨u, v⟩ := e
      have hpe : parsedEdges (line :: rest) = (u, v) :: parsedEdges rest := by
        simp [parsedEdges, List.filterMap_cons, hp]
      rw [hpe] at h
      have h' : ∀ x ∈ endpoints (parsedEdges rest), ∃ i, mapFind m x = some i := by
        intro x hx; apply h
        simp only [endpoints, List.flatMap_cons, List.cons_append, List.nil_append,
          List.mem_cons]
        exact Or.inr (Or.inr hx)
      obtain ⟨iu, hu⟩ := h u (by simp [endpoints])
      obtain ⟨iv, hv⟩ := h v (by simp [endpoints])
      simp only [mapIndex_of_find hu, mapIndex_of_find hv]
      rw [ih _ h', hpe]
      simp [toEdge, idOf, hu, hv]

/-! ## The reverse map -/

theorem foldl_set_length (m : List (Int × Nat)) (r : List Int) :
    (buildReverse m r).length = r.length := by
  unfold buildReverse
  induction m generalizing r with
  | nil => rfl
  | cons p t ih => simp [List.foldl_cons, ih]

theorem foldl_set_untouched (m : List (Int × Nat)) (r : List Int) (v : Nat)
    (h : v ∉ m.map Prod.snd) : (buildReverse m r)[v]? = r[v]? := by
  unfold buildReverse
  induction m generalizing r with
  | nil => rfl
  | cons p t ih =>
    simp only [List.map_cons, List.mem_cons, not_or] at h
    rw [List.foldl_cons, ih _ h.2, List.getElem?_set_ne (Ne.symm h.1)]

theorem foldl_set_get (m : List (Int × Nat)) (r : List Int) (k : Int) (v : Nat)
    (hm : (m.map Prod.snd).Nodup) (hkv : (k, v) ∈ m) (hv : v < r.length) :
    (buildReverse m r)[v]? = some k := by
  induction m generalizing r with
  | nil => cases hkv
  | cons p t ih =>
    simp only [List.map_cons, List.nodup_cons] at hm
    rcases List.mem_cons.mp hkv with h | h
    · subst h
      have := foldl_set_untouched t (r.set v k) v hm.1
      unfold buildReverse at this ⊢
      rw [List.foldl_cons, this, List.getElem?_set_eq_of_lt _ hv]
    · have := ih (r.set p.2 p.1) hm.2 h (by simpa using hv)
      unfold buildReverse at this ⊢
      rw [List.foldl_cons]; exact this

theorem IdInv.buildReverse_eq {m ks} (h : IdInv m ks) :
    buildReverse m (List.replicate ks.length 0) = ks := by
  apply List.ext_getElem?
  intro i
  rcases Nat.lt_or_ge i ks.length with hi | hi
  · have hmem : (ks[i], i) ∈ m := by
      rw [h.1.mem_iff, mem_zip_range]
      exact List.getElem?_eq_getElem hi
    have hnd : (m.map Prod.snd).Nodup :=
      (h.vals_perm.nodup_iff).mpr (List.nodup_range _)
    rw [foldl_set_get m _ _ i hnd hmem (by simpa using hi)]
    exact (List.getElem?_eq_getElem hi).symm
  · rw [List.getElem?_eq_none hi, List.getElem?_eq_none]
    rw [foldl_set_length]; simpa using hi

/-! ## The edge order -/

theorem Edge.le_iff (a b : Edge) : Edge.le a b ↔ a.u < b.u ∨ (a.u = b.u ∧ a.v ≤ b.v) := by
  unfold Edge.le Edge.lt
  by_cases h : b.u = a.u
  · simp only [h, ne_eq, not_true_eq_false, if_false, not_lt, lt_self_iff_false, true_and,
      false_or]
  · simp only [ne_eq, h, not_false_eq_true, if_true, not_lt]
    constructor
    · intro h'
      exact Or.inl (lt_of_le_of_ne h' (fun e => h e.symm))
    · rintro (h' | ⟨h', _⟩)
      · exact le_of_lt h'
      · exact absurd h'.symm h

theorem Edge.le_u {a b : Edge} (h : Edge.le a b) : a.u ≤ b.u := by
  rw [Edge.le_iff] at h; omega

theorem sortedEdges_perm (m : List (Int × Nat)) (es : List (Int × Int)) :
    (sortedEdges m es).Perm (es.map (toEdge m)) :=
  List.perm_insertionSort _ _

theorem sortedEdges_sorted (m : List (Int × Nat)) (es : List (Int × Int)) :
    (sortedEdges m es).Pairwise Edge.le := by
  haveI : IsTotal Edge Edge.le :=
    ⟨fun a b => by rw [Edge.le_iff, Edge.le_iff]; omega⟩
  haveI : IsTrans Edge Edge.le :=
    ⟨fun a b c => by rw [Edge.le_iff, Edge.le_iff, Edge.le_iff]; omega⟩
  exact List.sorted_insertionSort _ _

theorem sortedEdges_pairwise_u (m : List (Int × Nat)) (es : List (Int × Int)) :
    (sortedEdges m es).Pairwise (fun a b => a.u ≤ b.u) :=
  (sortedEdges_sorted m es).imp Edge.le_u

theorem sortedEdges_length (m : List (Int × Nat)) (es : List (Int × Int)) :
    (sortedEdges m es).length = es.length := by
  rw [(sortedEdges_perm m es).length_eq, List.length_map]

/-! ## Row offsets -/

theorem fillRowsN_snd (k : Nat) (rp : List Nat) (cur i : Nat) :
    (fillRowsN k rp cur i).2 = cur + k := by
  induction k generalizing rp cur with
  | zero => rfl
  | succ k ih => rw [fillRowsN, ih]; omega

theorem fillRowsN_length (k : Nat) (rp : List Nat) (cur i : Nat) :
    (fillRowsN k rp cur i).1.length = rp.length := by
  induction k generalizing rp cur with
  | zero => rfl
  | succ k ih => rw [fillRowsN, ih, List.length_set]

theorem fillRowsN_get (k : Nat) (rp : List Nat) (cur i r : Nat) :
    (fillRowsN k rp cur i).1[r]? =
      if cur < r ∧ r ≤ cur + k ∧ r < rp.length then some i else rp[r]? := by
  induction k generalizing rp cur with
  | zero =>
    have : ¬ (cur < r ∧ r ≤ cur + 0 ∧ r < rp.length) := by omega
    simp only [fillRowsN, this, if_false]
  | succ k ih =>
    rw [fillRowsN, ih, List.length_set, List.getElem?_set]
    by_cases h1 : cur + 1 = r
    · have a : ¬ (cur + 1 < r ∧ r ≤ cur + 1 + k ∧ r < rp.length) := by omega
      rw [if_neg a, if_pos h1]
      by_cases h2 : cur + 1 < rp.length
      · have b : cur < r ∧ r ≤ cur + (k + 1) ∧ r < rp.length := by omega
        rw [if_pos h2, if_pos b]
      · have b : ¬ (cur < r ∧ r ≤ cur + (k + 1) ∧ r < rp.length) := by omega
        rw [if_neg h2, if_neg b]
        exact (List.getElem?_eq_none (by omega)).symm
    · rw [if_neg h1]
      by_cases h3 : cur + 1 < r ∧ r ≤ cur + 1 + k ∧ r < rp.length
      · have b : cur < r ∧ r ≤ cur + (k + 1) ∧ r < rp.length := by omega
        rw [if_pos h3, if_pos b]
      · have b : ¬ (cur < r ∧ r ≤ cur + (k + 1) ∧ r < rp.length) := by omega
        rw [if_neg h3, if_neg b]

theorem fillRows_snd (rp : List Nat) (cur u i : Nat) (h : cur ≤ u) :
    (fillRows rp cur u i).2 = u := by
  unfold fillRows; rw [fillRowsN_snd]; omega

theorem fillRows_length (rp : List Nat) (cur u i : Nat) :
    (fillRows rp cur u i).1.length = rp.length := by
  unfold fillRows; rw [fillRowsN_length]

theorem fillRows_get (rp : List Nat) (cur u i r : Nat) (h : cur ≤ u) :
    (fillRows rp cur u i).1[r]? =
      if cur < r ∧ r ≤ u ∧ r < rp.length then some i else rp[r]? := by
  unfold fillRows; rw [fillRowsN_get]
  have : cur + (u - cur) = u := by omega
  rw [this]

theorem before_append_singleton (l : List Edge) (e : Edge) (r : Nat) :
    before (l ++ [e]) r = before l r + (if e.u < r then 1 else 0) := by
  unfold before
  rw [List.countP_append]
  by_cases h : e.u < r <;> simp [List.countP_cons, h]

theorem before_eq_length (l : List Edge) (r : Nat) (h : ∀ e ∈ l, e.u < r) :
    before l r = l.length := by
  unfold before
  rw [List.countP_eq_length]
  intro e he
  simpa using h e he

theorem csrWalk_inv (n : Nat) (es done : List Edge) (s : Csr) (hI : WalkInv n done s)
    (hsorted : es.Pairwise (fun a b => a.u ≤ b.u)) (hcur : ∀ e ∈ es, s.current_row ≤ e.u)
    (hN : ∀ e ∈ es, e.u < n) : WalkInv n (done ++ es) (csrWalk es done.length s) := by
  induction es generalizing done s with
  | nil => simpa [csrWalk] using hI
  | cons e es ih =>
    have hce : s.current_row ≤ e.u := hcur e (List.mem_cons_self _ _)
    have hen : e.u < n := hN e (List.mem_cons_self _ _)
    rw [List.pairwise_cons] at hsorted
    have step : WalkInv n (done ++ [e])
        { row_ptr := (fillRows s.row_ptr s.current_row e.u done.length).1,
          current_row := (fillRows s.row_ptr s.current_row e.u done.length).2,
          col_indices := s.col_indices.set done.length e.v,
          values := s.values.set done.length 1 } := by
      refine ⟨?_, ?_, ?_, ?_⟩
      · simp only [fillRows_length]; exact hI.len
      · simp only [fillRows_snd _ _ _ _ hce]; omega
      · simp only [fillRows_snd _ _ _ _ hce]
        intro e' he'
        rcases List.mem_append.mp he' with h | h
        · exact le_trans (hI.done_le e' h) hce
        · simp only [List.mem_singleton] at h; subst h; exact le_refl _
      · simp only [fillRows_snd _ _ _ _ hce]
        intro r hr
        rw [fillRows_get _ _ _ _ _ hce, before_append_singleton]
        have hne : ¬ e.u < r := by omega
        simp only [hne, if_false, Nat.add_zero]
        by_cases h : s.current_row < r
        · have hc : s.current_row < r ∧ r ≤ e.u ∧ r < s.row_ptr.length := by
            rw [hI.len]; omega
          simp only [hc, and_self, if_true]
          rw [before_eq_length]
          intro e' he'
          exact lt_of_le_of_lt (hI.done_le e' he') h
        · have hc : ¬ (s.current_row < r ∧ r ≤ e.u ∧ r < s.row_ptr.length) := by omega
          simp only [hc, if_false]
          exact hI.rp r (by omega)
    have := ih (done ++ [e]) _ step hsorted.2
      (by intro e' he'; simp only [fillRows_snd _ _ _ _ hce]; exact hsorted.1 e' he')
      (by intro e' he'; exact hN e' (List.mem_cons_of_mem _ he'))
    simp only [List.length_append, List.length_singleton, List.append_assoc,
      List.singleton_append] at this
    exact this

theorem take_succ_set {α : Type} (l : List α) (i : Nat) (a : α) (h : i < l.length) :
    (l.set i a).take (i + 1) = l.take i ++ [a] := by
  rw [List.take_succ, List.set_take,
    List.set_eq_of_length_le (by rw [List.length_take]; omega),
    List.getElem?_set_eq_of_lt a h]
  rfl

theorem csrWalk_col (es : List Edge) (i : Nat) (s : Csr)
    (h : i + es.length ≤ s.col_indices.length) :
    (csrWalk es i s).col_indices =
      s.col_indices.take i ++ es.map (fun e => e.v) ++ s.col_indices.drop (i + es.length) := by
  induction es generalizing i s with
  | nil => simp [csrWalk]
  | cons e es ih =>
    simp only [List.length_cons] at h
    have hlen : i + 1 + es.length ≤ (s.col_indices.set i e.v).length := by
      rw [List.length_set]; omega
    rw [csrWalk, ih (i + 1) _ hlen]
    simp only
    have h2 : (s.col_indices.set i e.v).drop (i + 1 + es.length) =
        s.col_indices.drop (i + (es.length + 1)) := by
      rw [List.drop_set_of_lt _ _ (by omega)]
      congr 1; omega
    rw [take_succ_set _ _ _ (by omega), h2]
    simp [List.length_cons]

theorem csrWalk_values (es : List Edge) (i : Nat) (s : Csr)
    (h : i + es.length ≤ s.values.length) :
    (csrWalk es i s).values =
      s.values.take i ++ List.replicate es.length 1 ++ s.values.drop (i + es.length) := by
  induction es generalizing i s with
  | nil => simp [csrWalk]
  | cons e es ih =>
    simp only [List.length_cons] at h
    have hlen : i + 1 + es.length ≤ (s.values.set i 1).length := by
      rw [List.length_set]; omega
    rw [csrWalk, ih (i + 1) _ hlen]
    simp only
    have h2 : (s.values.set i 1).drop (i + 1 + es.length) =
        s.values.drop (i + (es.length + 1)) := by
      rw [List.drop_set_of_lt _ _ (by omega)]
      congr 1; omega
    rw [take_succ_set _ _ _ (by omega), h2]
    simp [List.length_cons, List.replicate_succ]

/-! ## What a load produces -/

theorem idMapOf_inv (es : List (Int × Int)) : IdInv (idMapOf es) (firstOcc (endpoints es)) := by
  have := IdInv.nil.foldl (endpoints es)
  rwa [foldl_addNew_nil] at this

theorem idMapOf_find (es : List (Int × Int)) {x : Int} (hx : x ∈ endpoints es) :
    ∃ i, mapFind (idMapOf es) x = some i :=
  (idMapOf_inv es).find_isSome ((mem_firstOcc _ _).mpr hx)

theorem idOf_lt (es : List (Int × Int)) {x : Int} (hx : x ∈ endpoints es) :
    idOf (idMapOf es) x < (idMapOf es).length := by
  obtain ⟨i, hi⟩ := idMapOf_find es hx
  rw [(idMapOf_inv es).length]
  simpa [idOf, hi] using (idMapOf_inv es).find_lt hi

theorem mem_endpoints {es : List (Int × Int)} {e : Int × Int} (he : e ∈ es) :
    e.1 ∈ endpoints es ∧ e.2 ∈ endpoints es := by
  unfold endpoints
  simp only [List.mem_flatMap, List.mem_cons, List.mem_singleton, List.not_mem_nil, or_false]
  exact ⟨⟨e, he, Or.inl rfl⟩, ⟨e, he, Or.inr rfl⟩⟩

theorem sortedEdges_bound (es : List (Int × Int)) {e : Edge}
    (he : e ∈ sortedEdges (idMapOf es) es) :
    e.u < (idMapOf es).length ∧ e.v < (idMapOf es).length := by
  rw [(sortedEdges_perm _ _).mem_iff, List.mem_map] at he
  obtain ⟨p, hp, rfl⟩ := he
  exact ⟨idOf_lt es (mem_endpoints hp).1, idOf_lt es (mem_endpoints hp).2⟩

theorem loadLines_new (lines : List (List Char)) :
    LoadSpec (parsedEdges lines) (loadLines SparseGraph.new lines) := by
  have hinv := idMapOf_inv (parsedEdges lines)
  have hp1 : pass1 lines (0, ([] : List (Int × Nat))) =
      ((parsedEdges lines).length, idMapOf (parsedEdges lines)) := by
    rw [pass1_eq]; simp [idMapOf]
  have hp2 : pass2 lines (idMapOf (parsedEdges lines)) [] =
      (idMapOf (parsedEdges lines), (parsedEdges lines).map (toEdge (idMapOf (parsedEdges lines)))) := by
    rw [pass2_eq lines _ [] (fun x hx => idMapOf_find _ hx)]; simp
  have hS : List.insertionSort Edge.le
      ((parsedEdges lines).map (toEdge (idMapOf (parsedEdges lines)))) =
      sortedEdges (idMapOf (parsedEdges lines)) (parsedEdges lines) := rfl
  have hlen : (sortedEdges (idMapOf (parsedEdges lines)) (parsedEdges lines)).length =
      (parsedEdges lines).length := sortedEdges_length _ _
  have hw := csrWalk_inv (idMapOf (parsedEdges lines)).length
    (sortedEdges (idMapOf (parsedEdges lines)) (parsedEdges lines)) []
    { row_ptr := List.replicate ((idMapOf (parsedEdges lines)).length + 1) 0,
      col_indices := List.replicate (parsedEdges lines).length 0,
      values := List.replicate (parsedEdges lines).length 0, current_row := 0 }
    ⟨by simp, Nat.zero_le _, by simp, by
      intro r hr
      have : r = 0 := by simpa using hr
      subst this; simp [before]⟩
    (sortedEdges_pairwise_u _ _) (by intro e _; exact Nat.zero_le _)
    (fun e he => (sortedEdges_bound _ he).1)
  simp only [List.length_nil, List.nil_append] at hw
  unfold loadLines
  simp only [SparseGraph.new, hp1, hp2, hS]
  refine ⟨hinv, rfl, hinv.length, rfl, hinv.length ▸ hinv.buildReverse_eq, ?_, ?_, ?_, ?_⟩
  · simp only
    rw [csrWalk_col _ _ _ (by simp [hlen])]
    simp [hlen]
  · simp only
    rw [csrWalk_values _ _ _ (by simp [hlen])]
    simp [hlen]
  · simp only [List.length_set, fillRows_length]
    exact hw.len
  · intro r hr
    simp only at hr ⊢
    rw [List.getElem?_set]
    by_cases h : (idMapOf (parsedEdges lines)).length = r
    · subst h
      rw [if_pos rfl, if_pos (by rw [fillRows_length, hw.len]; omega)]
      rw [before_eq_length _ _ (fun e he => (sortedEdges_bound _ he).1), hlen]
    · rw [if_neg h, fillRows_get _ _ _ _ _ hw.cur_le]
      by_cases h2 : (csrWalk (sortedEdges (idMapOf (parsedEdges lines)) (parsedEdges lines)) 0
          { row_ptr := List.replicate ((idMapOf (parsedEdges lines)).length + 1) 0,
            col_indices := List.replicate (parsedEdges lines).length 0,
            values := List.replicate (parsedEdges lines).length 0,
            current_row := 0 }).current_row < r
      · rw [if_pos ⟨h2, hr, by rw [hw.len]; omega⟩]
        rw [before_eq_length _ _
          (fun e he => lt_of_le_of_lt (hw.done_le e he) h2), hlen]
      · rw [if_neg (by omega)]
        exact hw.rp r (by omega)

theorem load_spec (content : List Char) :
    LoadSpec (parsedEdges (getlines content)) (load content) :=
  loadLines_new _

/-! ## Identifier queries on a loaded graph -/

theorem getInternalId_of_find {g : SparseGraph} {x : Int} {i : Nat}
    (h : mapFind g.id_map x = some i) : g.getInternalId x = (i : Int) := by
  simp [SparseGraph.getInternalId, h]

theorem getInternalId_of_none {g : SparseGraph} {x : Int}
    (h : mapFind g.id_map x = none) : g.getInternalId x = -1 := by
  simp [SparseGraph.getInternalId, h]

theorem getInternalId_eq_neg_one {g : SparseGraph} {x : Int} :
    g.getInternalId x = -1 ↔ mapFind g.id_map x = none := by
  cases h : mapFind g.id_map x with
  | none => simp [SparseGraph.getInternalId, h]
  | some i =>
    simp only [SparseGraph.getInternalId, h, reduceCtorEq, iff_false]

theorem LoadSpec.find_of_mem {es g} (h : LoadSpec es g) {x : Int} (hx : x ∈ endpoints es) :
    ∃ i, i < g.num_nodes ∧ mapFind g.id_map x = some i ∧
      (firstOcc (endpoints es))[i]? = some x := by
  obtain ⟨i, hi⟩ := h.idinv.find_isSome ((mem_firstOcc _ _).mpr hx)
  exact ⟨i, h.nodes ▸ h.idinv.find_lt hi, hi, (h.idinv.find_some x i).mp hi⟩

theorem LoadSpec.mem_of_find {es g} (h : LoadSpec es g) {x : Int} {i : Nat}
    (hi : mapFind g.id_map x = some i) :
    x ∈ endpoints es ∧ i < g.num_nodes ∧ (firstOcc (endpoints es))[i]? = some x := by
  have h1 := (h.idinv.find_some x i).mp hi
  refine ⟨?_, h.nodes ▸ h.idinv.find_lt hi, h1⟩
  rw [← mem_firstOcc]
  exact List.mem_iff_getElem?.mpr ⟨i, h1⟩

theorem LoadSpec.ext_get {es g} (h : LoadSpec es g) {i : Nat} (hi : i < g.num_nodes) :
    (firstOcc (endpoints es))[i]? = some (g.getExternalId (i : Int)) := by
  have hi' : i < (firstOcc (endpoints es)).length := h.nodes ▸ hi
  have hc : (0 : Int) ≤ (i : Int) ∧ (i : Int) < (g.num_nodes : Int) :=
    ⟨Int.ofNat_nonneg i, by exact_mod_cast hi⟩
  simp only [SparseGraph.getExternalId, hc, and_self, if_true, Int.toNat_ofNat, h.rev,
    List.getD_eq_getElem?_getD, List.getElem?_eq_getElem hi', Option.getD_some]

theorem LoadSpec.find_ext {es g} (h : LoadSpec es g) {i : Nat} (hi : i < g.num_nodes) :
    mapFind g.id_map (g.getExternalId (i : Int)) = some i :=
  (h.idinv.find_some _ i).mpr (h.ext_get hi)

theorem LoadSpec.ext_of_find {es g} (h : LoadSpec es g) {x : Int} {i : Nat}
    (hi : mapFind g.id_map x = some i) : g.getExternalId (i : Int) = x := by
  have h1 := (h.mem_of_find hi)
  have h2 := h.ext_get h1.2.1
  rw [h1.2.2] at h2
  exact (Option.some.inj h2).symm

theorem firstOcc_card (xs : List Int) : (firstOcc xs).length = xs.toFinset.card := by
  rw [← List.toFinset_card_of_nodup (nodup_firstOcc xs)]
  congr 1
  ext y
  simp [mem_firstOcc]

theorem parsedEdges_length (lines : List (List Char)) :
    (parsedEdges lines).length = (lines.filter (fun l => (parseLine l).isSome)).length := by
  induction lines with
  | nil => rfl
  | cons l ls ih =>
    unfold parsedEdges at ih ⊢
    cases hp : parseLine l with
    | none => simp [List.filterMap_cons, List.filter_cons, hp, ih]
    | some e => simp [List.filterMap_cons, List.filter_cons, hp, ih]

theorem parseLine_isSome {l : List Char} (h : (parseLine l).isSome) :
    l ≠ [] ∧ l.head? ≠ some '#' := by
  cases l with
  | nil => simp [parseLine] at h
  | cons c cs =>
    by_cases hc : c = '#'
    · simp [parseLine, hc] at h
    · simpa using hc

/-! ## Adjacency slices -/

theorem before_mono (l : List Edge) (r : Nat) : before l r ≤ before l (r + 1) := by
  unfold before
  apply List.countP_mono_left
  intro e _ h
  simp only [decide_eq_true_eq] at h ⊢
  omega

theorem take_countP_of_pairwise {α : Type} (p : α → Bool) (l : List α)
    (h : l.Pairwise (fun a b => p b = true → p a = true)) :
    l.take (l.countP p) = l.filter p ∧ l.drop (l.countP p) = l.filter (fun a => !p a) := by
  induction l with
  | nil => simp
  | cons a l ih =>
    rw [List.pairwise_cons] at h
    by_cases hp : p a = true
    · have := ih h.2
      simp [List.countP_cons, hp, this.1, this.2]
    · have hall : ∀ b ∈ l, ¬ p b = true := fun b hb hpb => hp (h.1 b hb hpb)
      have h0 : l.countP p = 0 := by
        rw [List.countP_eq_zero]; exact hall
      have h1 : l.filter p = [] := by
        rw [List.filter_eq_nil_iff]; exact hall
      have h2 : l.filter (fun a => !p a) = l := by
        rw [List.filter_eq_self]
        intro b hb; simpa using hall b hb
      simp [List.countP_cons, hp, h0, h1, h2]

theorem pairwise_lt_of_sorted (l : List Edge) (h : l.Pairwise (fun a b => a.u ≤ b.u))
    (r : Nat) :
    l.Pairwise (fun a b => decide (b.u < r) = true → decide (a.u < r) = true) := by
  apply h.imp
  intro a b hab hb
  simp only [decide_eq_true_eq] at hb ⊢
  omega

theorem slice_eq_filter (l : List Edge) (h : l.Pairwise (fun a b => a.u ≤ b.u)) (r : Nat) :
    (l.drop (before l r)).take (before l (r + 1) - before l r) =
      l.filter (fun e => decide (e.u = r)) := by
  have h1 := take_countP_of_pairwise (fun e => decide (e.u < r)) l (pairwise_lt_of_sorted l h r)
  have hT : (l.filter (fun e => !decide (e.u < r))).Pairwise (fun a b => a.u ≤ b.u) :=
    h.sublist (List.filter_sublist _)
  have h2 := take_countP_of_pairwise (fun e : Edge => decide (e.u < r + 1)) _
    (pairwise_lt_of_sorted _ hT (r + 1))
  have hsplit : before l (r + 1) =
      before l r + (l.filter (fun e => !decide (e.u < r))).countP (fun e => decide (e.u < r + 1)) := by
    have e1 : l = l.filter (fun e => decide (e.u < r)) ++ l.filter (fun e => !decide (e.u < r)) := by
      rw [← h1.1, ← h1.2, List.take_append_drop]
    have e2 : before l (r + 1) = (l.filter (fun e => decide (e.u < r))).countP
        (fun e => decide (e.u < r + 1)) +
        (l.filter (fun e => !decide (e.u < r))).countP (fun e => decide (e.u < r + 1)) := by
      unfold before
      conv_lhs => rw [e1]
      rw [List.countP_append]
    rw [e2]
    congr 1
    rw [List.countP_eq_length.mpr, before, List.countP_eq_length_filter]
    intro e he
    have := (List.mem_filter.mp he).2
    simp only [decide_eq_true_eq] at this ⊢
    omega
  have hd : l.drop (before l r) = l.filter (fun e : Edge => !decide (e.u < r)) := h1.2
  rw [hd, hsplit, Nat.add_sub_cancel_left, h2.1, List.filter_filter]
  apply List.filter_congr
  intro e _
  by_cases a : e.u < r <;> by_cases b : e.u = r <;> simp [a, b]
  all_goals omega

theorem LoadSpec.rp_getD {es g} (h : LoadSpec es g) {r : Nat} (hr : r ≤ g.num_nodes) :
    g.row_ptr.getD r 0 = before (sortedEdges g.id_map es) r := by
  rw [List.getD_eq_getElem?_getD, h.rp r hr]; rfl

theorem LoadSpec.adj_eq {es g} (h : LoadSpec es g) {u : Nat} (hu : u < g.num_nodes) :
    g.adj u = ((sortedEdges g.id_map es).filter (fun e => decide (e.u = u))).map
      (fun e : Edge => e.v) := by
  unfold SparseGraph.adj
  rw [h.rp_getD (le_of_lt hu), h.rp_getD hu, h.col, ← List.map_drop, ← List.map_take,
    slice_eq_filter _ (sortedEdges_pairwise_u _ _)]

theorem map_range'_getD (l : List Nat) (s n : Nat) (h : s + n ≤ l.length) :
    (List.range' s n).map (fun i => l.getD i 0) = (l.drop s).take n := by
  induction n generalizing s with
  | zero => simp
  | succ n ih =>
    have hs : s < l.length := by omega
    rw [List.range'_succ, List.map_cons, ih (s + 1) (by omega), List.drop_eq_getElem_cons hs,
      List.take_succ_cons]
    simp [List.getElem?_eq_getElem hs]

theorem foldl_range'_getD {β : Type} (l : List Nat) (s n : Nat) (h : s + n ≤ l.length)
    (F : β → Nat → β) (b : β) :
    (List.range' s n).foldl (fun acc i => F acc (l.getD i 0)) b =
      ((l.drop s).take n).foldl F b := by
  rw [← map_range'_getD l s n h, List.foldl_map]

theorem foldl_append_singleton {α β : Type} (f : α → β) (xs : List α) (acc : List β) :
    xs.foldl (fun a x => a ++ [f x]) acc = acc ++ xs.map f := by
  induction xs generalizing acc with
  | nil => simp
  | cons x xs ih => simp [ih]

theorem LoadSpec.slice_bound {es g} (h : LoadSpec es g) {u : Nat} (hu : u < g.num_nodes) :
    g.row_ptr.getD u 0 + (g.row_ptr.getD (u + 1) 0 - g.row_ptr.getD u 0) ≤
      g.col_indices.length := by
  have hu1 : u + 1 ≤ g.num_nodes := hu
  rw [h.rp_getD (le_of_lt hu), h.rp_getD hu1, h.col, List.length_map]
  have h1 := before_mono (sortedEdges g.id_map es) u
  have h2 : before (sortedEdges g.id_map es) (u + 1) ≤ (sortedEdges g.id_map es).length :=
    List.countP_le_length _
  omega

theorem LoadSpec.getNeighbors_eq {es g} (h : LoadSpec es g) {x : Int} {u : Nat}
    (hx : mapFind g.id_map x = some u) :
    g.getNeighbors x = (g.adj u).map (fun (v : Nat) => g.getExternalId (v : Int)) := by
  have hu := (h.mem_of_find hx).2.1
  have hne : ¬ ((u : Int) = -1) := by omega
  unfold SparseGraph.getNeighbors
  simp only [getInternalId_of_find hx, hne, if_false, Int.toNat_ofNat]
  rw [foldl_range'_getD g.col_indices _ _ (h.slice_bound hu)
    (fun acc (v : Nat) => acc ++ [g.getExternalId (v : Int)]) [], foldl_append_singleton]
  rfl

/-! ## Neighbour multiplicities -/

theorem LoadSpec.idOf_eq_iff {es g} (h : LoadSpec es g) {a u : Int} {i : Nat}
    (ha : a ∈ endpoints es) (hu : mapFind g.id_map u = some i) :
    idOf g.id_map a = i ↔ a = u := by
  obtain ⟨j, _, hj, hkj⟩ := h.find_of_mem ha
  constructor
  · intro e
    have : j = i := by simpa [idOf, hj] using e
    subst this
    have h2 := (h.idinv.find_some u j).mp hu
    rw [hkj] at h2
    exact Option.some.inj h2
  · intro e
    subst e
    simp [idOf, hu]

theorem LoadSpec.ext_idOf {es g} (h : LoadSpec es g) {b : Int} (hb : b ∈ endpoints es) :
    g.getExternalId (idOf g.id_map b : Nat) = b := by
  obtain ⟨j, _, hj, _⟩ := h.find_of_mem hb
  have : idOf g.id_map b = j := by simp [idOf, hj]
  rw [this]
  exact h.ext_of_find hj

theorem LoadSpec.count_neighbors {es g} (h : LoadSpec es g) (u v : Int) :
    (g.getNeighbors u).count v = es.count (u, v) := by
  cases hf : mapFind g.id_map u with
  | none =>
    have h1 : g.getNeighbors u = [] := by
      simp [SparseGraph.getNeighbors, getInternalId_of_none hf]
    rw [h1, List.count_nil, eq_comm, List.count_eq_zero]
    intro hmem
    obtain ⟨i, _, hi, _⟩ := h.find_of_mem (mem_endpoints hmem).1
    simp only at hi
    rw [hf] at hi
    cases hi
  | some i =>
    have hi := (h.mem_of_find hf).2.1
    rw [h.getNeighbors_eq hf, h.adj_eq hi, List.map_map, List.count_eq_countP,
      List.countP_map, List.countP_filter, (sortedEdges_perm _ _).countP_eq, List.countP_map,
      List.count_eq_countP]
    apply List.countP_congr
    intro p hp
    obtain ⟨a, b⟩ := p
    have ha := (mem_endpoints hp).1
    have hb := (mem_endpoints hp).2
    simp only at ha hb
    have e1 := h.idOf_eq_iff ha hf
    have e2 := h.ext_idOf hb
    simp only [Function.comp, toEdge, Bool.and_eq_true, beq_iff_eq, decide_eq_true_eq, e2, e1,
      Prod.mk.injEq]
    tauto

/-! ## The maximum-degree scan -/

theorem getMaxDegreeNode_eq (g : SparseGraph) :
    g.getMaxDegreeNode = g.getExternalId (g.maxScan g.num_nodes).2 := rfl

theorem maxScan_succ (g : SparseGraph) (n : Nat) :
    g.maxScan (n + 1) =
      if g.rowDegree n > (g.maxScan n).1 then (g.rowDegree n, (n : Int)) else g.maxScan n := by
  unfold SparseGraph.maxScan SparseGraph.rowDegree
  rw [List.range_succ, List.foldl_append]
  rfl

theorem maxScan_spec (g : SparseGraph) (hdeg : 0 ≤ g.rowDegree 0) (n : Nat) :
    ∃ m : Nat, m < n + 1 ∧ g.maxScan (n + 1) = (g.rowDegree m, (m : Int)) ∧
      (∀ i, i < n + 1 → g.rowDegree i ≤ g.rowDegree m) ∧
      (∀ i, i < m → g.rowDegree i < g.rowDegree m) := by
  induction n with
  | zero =>
    refine ⟨0, by omega, ?_, ?_, ?_⟩
    · rw [maxScan_succ]
      have : g.rowDegree 0 > (g.maxScan 0).1 := by
        simp only [SparseGraph.maxScan, List.range_zero, List.foldl_nil]
        omega
      rw [if_pos this]
    · intro i hi
      have : i = 0 := by omega
      subst this; exact le_refl _
    · intro i hi; omega
  | succ n ih =>
    obtain ⟨m, hm, hs, hle, hlt⟩ := ih
    rw [maxScan_succ, hs]
    by_cases hc : g.rowDegree (n + 1) > g.rowDegree m
    · refine ⟨n + 1, by omega, by rw [if_pos hc], ?_, ?_⟩
      · intro i hi
        rcases Nat.lt_or_ge i (n + 1) with h | h
        · exact le_of_lt (lt_of_le_of_lt (hle i h) hc)
        · have : i = n + 1 := by omega
          subst this; exact le_refl _
      · intro i hi
        exact lt_of_le_of_lt (hle i hi) hc
    · refine ⟨m, by omega, by rw [if_neg hc], ?_, hlt⟩
      intro i hi
      rcases Nat.lt_or_ge i (n + 1) with h | h
      · exact hle i h
      · have : i = n + 1 := by omega
        subst this; omega

theorem LoadSpec.rowDegree_nonneg {es g} (h : LoadSpec es g) {i : Nat}
    (hi : i < g.num_nodes) : 0 ≤ g.rowDegree i := by
  unfold SparseGraph.rowDegree
  have hi1 : i + 1 ≤ g.num_nodes := hi
  rw [h.rp_getD (le_of_lt hi), h.rp_getD hi1]
  have := before_mono (sortedEdges g.id_map es) i
  omega

/-! ## Claims about loading and the structural queries -/

/-- C1: after loading, `getNeighbors(u)` contains `v` exactly as many times as the edge
`(u, v)` occurs among the parsed lines of the input; duplicate edges are preserved.  (The
equality holds for every pair of ids, with both counts zero for pairs that never occur.) -/
theorem C1_neighbors_multiplicity (content : List Char) (u v : Int) :
    ((load content).getNeighbors u).count v = (parsedEdges (getlines content)).count (u, v) :=
  (load_spec content).count_neighbors u v

/-- C2: the row-offset array built by `loadFromFile` has `N + 1` entries, starts with `0`,
ends with `E` at index `N`, and is non-decreasing, where `N = getNumNodes()` and
`E = getNumEdges()`. -/
theorem C2_row_ptr_shape (content : List Char) :
    (load content).getNumNodes = ((load content).num_nodes : Int) ∧
    (load content).getNumEdges = ((load content).num_edges : Int) ∧
    (load content).row_ptr.length = (load content).num_nodes + 1 ∧
    (load content).row_ptr[0]? = some 0 ∧
    (load content).row_ptr[(load content).num_nodes]? = some (load content).num_edges ∧
    ∀ i, i < (load content).num_nodes →
      ∃ a b, (load content).row_ptr[i]? = some a ∧ (load content).row_ptr[i + 1]? = some b ∧
        a ≤ b := by
  have h := load_spec content
  refine ⟨rfl, rfl, h.rp_len, ?_, ?_, ?_⟩
  · rw [h.rp 0 (Nat.zero_le _)]
    simp [before]
  · rw [h.rp _ (le_refl _), h.edges,
      before_eq_length _ _ (fun e he => ?_), sortedEdges_length]
    have := (sortedEdges_bound _ (h.id_map_eq ▸ he)).1
    rw [← h.id_map_eq, h.idinv.length, ← h.nodes] at this
    exact this
  · intro i hi
    exact ⟨_, _, h.rp i (le_of_lt hi), h.rp (i + 1) hi, before_mono _ _⟩

/-- Witness for C2 on the three-line sample `1 2 / 2 3 / 1 3`, at row `i = 0`. -/
theorem C2_row_ptr_shape_witness :
    0 < (load ("1 2\n2 3\n1 3\n").toList).num_nodes ∧
    ∃ a b, (load ("1 2\n2 3\n1 3\n").toList).row_ptr[0]? = some a ∧
      (load ("1 2\n2 3\n1 3\n").toList).row_ptr[0 + 1]? = some b ∧ a ≤ b :=
  ⟨by decide, (C2_row_ptr_shape ("1 2\n2 3\n1 3\n").toList).2.2.2.2.2 0 (by decide)⟩

/-- C6: `getExternalId(getInternalId(x)) = x` for every external id `x` that is an endpoint
of a parsed edge, and `getInternalId(getExternalId(i)) = i` for every internal id
`0 ≤ i < getNumNodes()`. -/
theorem C6_id_roundtrip (content : List Char) :
    (∀ x, x ∈ endpoints (parsedEdges (getlines content)) →
      (load content).getExternalId ((load content).getInternalId x) = x) ∧
    (∀ i : Int, 0 ≤ i → i < (load content).getNumNodes →
      (load content).getInternalId ((load content).getExternalId i) = i) := by
  have h := load_spec content
  constructor
  · intro x hx
    obtain ⟨i, _, hi, _⟩ := h.find_of_mem hx
    rw [getInternalId_of_find hi]
    exact h.ext_of_find hi
  · intro i h0 hN
    obtain ⟨n, rfl⟩ := Int.eq_ofNat_of_zero_le h0
    have hn : n < (load content).num_nodes := by
      simpa [SparseGraph.getNumNodes] using hN
    exact getInternalId_of_find (h.find_ext hn)

/-- Witness for C6 on the three-line sample, at external id `3` and internal id `2`. -/
theorem C6_id_roundtrip_witness :
    (load ("1 2\n2 3\n1 3\n").toList).getExternalId
        ((load ("1 2\n2 3\n1 3\n").toList).getInternalId 3) = 3 ∧
    (load ("1 2\n2 3\n1 3\n").toList).getInternalId
        ((load ("1 2\n2 3\n1 3\n").toList).getExternalId 2) = 2 :=
  ⟨(C6_id_roundtrip ("1 2\n2 3\n1 3\n").toList).1 3 (by decide),
   (C6_id_roundtrip ("1 2\n2 3\n1 3\n").toList).2 2 (by decide) (by decide)⟩

/-- C7: internal ids are assigned in order of first appearance: the `k`-th element of the
endpoint sequence of the parsed edges with later repetitions removed has internal id `k`;
there are `getNumNodes()` such elements, and every internal id handed out lies in
`0 .. getNumNodes() - 1`. -/
theorem C7_first_appearance_order (content : List Char) :
    (load content).getNumNodes =
      ((firstOcc (endpoints (parsedEdges (getlines content)))).length : Int) ∧
    (∀ (k : Nat) (hk : k < (firstOcc (endpoints (parsedEdges (getlines content)))).length),
      (load content).getInternalId
        ((firstOcc (endpoints (parsedEdges (getlines content)))).get ⟨k, hk⟩) = (k : Int)) ∧
    (∀ x : Int, (load content).getInternalId x = -1 ∨
      (0 ≤ (load content).getInternalId x ∧
        (load content).getInternalId x < (load content).getNumNodes)) := by
  have h := load_spec content
  refine ⟨by simp [SparseGraph.getNumNodes, h.nodes], ?_, ?_⟩
  · intro k hk
    apply getInternalId_of_find
    rw [h.idinv.find_some]
    exact List.getElem?_eq_getElem hk
  · intro x
    cases hf : mapFind (load content).id_map x with
    | none => exact Or.inl (getInternalId_of_none hf)
    | some i =>
      right
      rw [getInternalId_of_find hf]
      have := (h.mem_of_find hf).2.1
      exact ⟨Int.ofNat_nonneg i, by simpa [SparseGraph.getNumNodes] using this⟩

/-- Witness for C7 on the input `5 7 / 7 5 / 9 5`, at position `k = 2` (external id `9`). -/
theorem C7_first_appearance_order_witness :
    (load ("5 7\n7 5\n9 5\n").toList).getInternalId 9 = 2 :=
  (C7_first_appearance_order ("5 7\n7 5\n9 5\n").toList).2.1 2 (by decide)

/-- C9: `getNumEdges()` is the number of lines that parse as an edge (repeated edges counted
each time; no empty line and no line starting with `#` is among them), and `getNumNodes()`
is the number of distinct external ids occurring as an endpoint of those edges. -/
theorem C9_counts (content : List Char) :
    (load content).getNumEdges =
      (((getlines content).filter (fun l => (parseLine l).isSome)).length : Int) ∧
    (load content).getNumNodes =
      ((endpoints (parsedEdges (getlines content))).toFinset.card : Int) ∧
    (∀ l, l ∈ (getlines content).filter (fun l => (parseLine l).isSome) →
      l ≠ [] ∧ l.head? ≠ some '#') := by
  have h := load_spec content
  refine ⟨?_, ?_, ?_⟩
  · simp [SparseGraph.getNumEdges, h.edges, parsedEdges_length]
  · simp [SparseGraph.getNumNodes, h.nodes, firstOcc_card]
  · intro l hl
    exact parseLine_isSome (List.mem_filter.mp hl).2

/-- Witness for C9 on an input with a comment, a blank line and a repeated edge. -/
theorem C9_counts_witness :
    ("4 5").toList ≠ [] ∧ ("4 5").toList.head? ≠ some '#' :=
  (C9_counts ("# c\n\n4 5\n4 5\n").toList).2.2 ("4 5").toList (by decide)

/-- C10: on a loaded graph with at least one node, `getMaxDegreeNode()` returns the external
id of the node with the smallest internal id among the nodes of maximal out-degree
`row_ptr[i + 1] - row_ptr[i]`: no node has a strictly greater degree and every node with a
smaller internal id has a strictly smaller degree. -/
theorem C10_max_degree_node (content : List Char) (hN : 0 < (load content).num_nodes) :
    ∃ m : Nat, m < (load content).num_nodes ∧
      (load content).getMaxDegreeNode = (load content).getExternalId (m : Int) ∧
      (∀ i, i < (load content).num_nodes →
        (load content).rowDegree i ≤ (load content).rowDegree m) ∧
      (∀ i, i < m → (load content).rowDegree i < (load content).rowDegree m) := by
  have h := load_spec content
  obtain ⟨n, hn⟩ : ∃ n, (load content).num_nodes = n + 1 := ⟨(load content).num_nodes - 1, by omega⟩
  obtain ⟨m, hm, hs, hle, hlt⟩ :=
    maxScan_spec (load content) (h.rowDegree_nonneg hN) n
  refine ⟨m, by omega, ?_, ?_, hlt⟩
  · rw [getMaxDegreeNode_eq, hn, hs]
  · intro i hi
    exact hle i (by omega)

/-- Witness for C10 on the three-line sample. -/
theorem C10_max_degree_node_witness :
    0 < (load ("1 2\n2 3\n1 3\n").toList).num_nodes ∧
    ∃ m : Nat, m < (load ("1 2\n2 3\n1 3\n").toList).num_nodes ∧
      (load ("1 2\n2 3\n1 3\n").toList).getMaxDegreeNode =
        (load ("1 2\n2 3\n1 3\n").toList).getExternalId (m : Int) ∧
      (∀ i, i < (load ("1 2\n2 3\n1 3\n").toList).num_nodes →
        (load ("1 2\n2 3\n1 3\n").toList).rowDegree i ≤
          (load ("1 2\n2 3\n1 3\n").toList).rowDegree m) ∧
      (∀ i, i < m → (load ("1 2\n2 3\n1 3\n").toList).rowDegree i <
        (load ("1 2\n2 3\n1 3\n").toList).rowDegree m) :=
  ⟨by decide, C10_max_degree_node ("1 2\n2 3\n1 3\n").toList (by decide)⟩

/-! ## Breadth-first search: the queue as a list -/

theorem length_le_of_nodup_bound (l : List Nat) (n : Nat) (hnd : l.Nodup)
    (hb : ∀ v, v ∈ l → v < n) : l.length ≤ n := by
  have hsub : l ⊆ List.range n := fun v hv => List.mem_range.mpr (hb v hv)
  have := (List.subperm_of_subset hnd hsub).length_le
  simpa using this

theorem Rep.tail_le {g s Q} (h : Rep g s Q) : s.tail ≤ g.num_nodes := by
  rw [h.tail_eq, ← List.length_map Q Prod.fst]
  exact length_le_of_nodup_bound _ _ h.nodup h.bound

theorem Rep.room {g s Q} (h : Rep g s Q) {v : Nat} (hv : v < g.num_nodes)
    (hnew : v ∉ Q.map Prod.fst) : s.tail < g.num_nodes := by
  have h1 : (v :: Q.map Prod.fst).Nodup := List.nodup_cons.mpr ⟨hnew, h.nodup⟩
  have h2 := length_le_of_nodup_bound _ g.num_nodes h1 (by
    intro w hw
    rcases List.mem_cons.mp hw with e | e
    · subst e; exact hv
    · exact h.bound w e)
  rw [h.tail_eq]
  simpa using h2

theorem getD_set_true (l : List Bool) (v w : Nat) (hv : v < l.length) :
    ((l.set v true).getD w false = true) ↔ (w = v ∨ l.getD w false = true) := by
  simp only [List.getD_eq_getElem?_getD, List.getElem?_set]
  by_cases e : v = w
  · subst e; simp [hv]
  · have e' : ¬ w = v := fun h => e h.symm
    simp [e, e']

theorem bfsVisit_head (g : SparseGraph) (d : Int) (s : Bfs) (i : Nat) :
    (bfsVisit g d s i).head = s.head := by
  unfold bfsVisit
  simp only
  split <;> rfl

theorem Rep.visit {g s Q} (h : Rep g s Q) (d : Int) (i : Nat)
    (hv : g.col_indices.getD i 0 < g.num_nodes) :
    Rep g (bfsVisit g d s i) (absVisit d Q (g.col_indices.getD i 0)) := by
  unfold bfsVisit absVisit
  simp only
  by_cases hvis : s.visited.getD (g.col_indices.getD i 0) false = true
  · have hmem := (h.vis _ hv).mp hvis
    rw [if_pos hvis, if_pos hmem]
    exact h
  · have hmem : g.col_indices.getD i 0 ∉ Q.map Prod.fst := fun hm => hvis ((h.vis _ hv).mpr hm)
    rw [if_neg hvis, if_neg hmem]
    have hroom := h.room hv hmem
    refine ⟨?_, ?_, ?_, ?_, ?_, ?_, ?_, ?_, ?_, ?_⟩
    · simp only [List.length_set]; exact h.qn_len
    · simp only [List.length_set]; exact h.qd_len
    · simp only [List.length_set]; exact h.vis_len
    · simp only [List.length_append, List.length_singleton, h.tail_eq]
    · simp only
      rw [take_succ_set _ _ _ (by rw [h.qn_len]; exact hroom), h.qn_eq]
      simp
    · simp only
      rw [take_succ_set _ _ _ (by rw [h.qd_len]; exact hroom), h.qd_eq]
      simp
    · rw [List.map_append, List.nodup_append]
      refine ⟨h.nodup, List.nodup_singleton _, ?_⟩
      intro a ha hb
      simp only [List.map_cons, List.map_nil, List.mem_singleton] at hb
      subst hb
      exact hmem ha
    · intro w hw
      rw [List.map_append, List.mem_append] at hw
      rcases hw with hw | hw
      · exact h.bound w hw
      · simp only [List.map_cons, List.map_nil, List.mem_singleton] at hw
        subst hw; exact hv
    · intro w hw
      simp only
      rw [getD_set_true _ _ _ (by rw [h.vis_len]; exact hv), h.vis w hw, List.map_append,
        List.mem_append]
      simp only [List.map_cons, List.map_nil, List.mem_singleton]
      tauto
    · simp only [h.ext, List.map_append, List.map_cons, List.map_nil]

theorem foldl_bfsVisit_head (g : SparseGraph) (d : Int) (is : List Nat) (s : Bfs) :
    (is.foldl (bfsVisit g d) s).head = s.head := by
  induction is generalizing s with
  | nil => rfl
  | cons i is ih => rw [List.foldl_cons, ih, bfsVisit_head]

theorem Rep.fold {g} (d : Int) (is : List Nat)
    (hv : ∀ i, i ∈ is → g.col_indices.getD i 0 < g.num_nodes) {s Q} (h : Rep g s Q) :
    Rep g (is.foldl (bfsVisit g d) s)
      ((is.map (fun i => g.col_indices.getD i 0)).foldl (absVisit d) Q) := by
  induction is generalizing s Q with
  | nil => exact h
  | cons i is ih =>
    rw [List.foldl_cons, List.map_cons, List.foldl_cons]
    exact ih (fun j hj => hv j (List.mem_cons_of_mem _ hj))
      (h.visit d i (hv i (List.mem_cons_self _ _)))

theorem LoadSpec.adj_lt {es g} (h : LoadSpec es g) {u w : Nat} (hu : u < g.num_nodes)
    (hw : w ∈ g.adj u) : w < g.num_nodes := by
  rw [h.adj_eq hu, List.mem_map] at hw
  obtain ⟨e, he, rfl⟩ := hw
  have he' := (List.mem_filter.mp he).1
  rw [h.id_map_eq] at he'
  have := (sortedEdges_bound es he').2
  rw [← h.id_map_eq, h.idinv.length, ← h.nodes] at this
  exact this

theorem LoadSpec.adj_map {es g} (h : LoadSpec es g) {u : Nat} (hu : u < g.num_nodes) :
    (List.range' (g.row_ptr.getD u 0) (g.row_ptr.getD (u + 1) 0 - g.row_ptr.getD u 0)).map
      (fun i => g.col_indices.getD i 0) = g.adj u :=
  map_range'_getD _ _ _ (h.slice_bound hu)

theorem Rep.head_entry {g s Q} (h : Rep g s Q) (hlt : s.head < s.tail) :
    Q[s.head]? = some (s.queue_nodes.getD s.head 0, s.queue_depths.getD s.head 0) := by
  have hlen : s.head < Q.length := h.tail_eq ▸ hlt
  have h1 : (Q.map Prod.fst)[s.head]? = s.queue_nodes[s.head]? := by
    rw [← h.qn_eq, List.getElem?_take_of_lt hlt]
  have h2 : (Q.map Prod.snd)[s.head]? = s.queue_depths[s.head]? := by
    rw [← h.qd_eq, List.getElem?_take_of_lt hlt]
  rw [List.getElem?_map, List.getElem?_eq_getElem hlen] at h1 h2
  simp only [Option.map_some'] at h1 h2
  rw [List.getElem?_eq_getElem hlen, List.getD_eq_getElem?_getD, List.getD_eq_getElem?_getD,
    ← h1, ← h2]
  rfl

theorem Rep.rep_step {es g} (hg : LoadSpec es g) (maxDepth : Int) {s Q} (h : Rep g s Q)
    (hlt : s.head < s.tail) :
    Rep g (bfsStep g maxDepth s) (absExpand g maxDepth Q s.head) ∧
      (bfsStep g maxDepth s).head = s.head + 1 := by
  have hent := h.head_entry hlt
  have hu : s.queue_nodes.getD s.head 0 < g.num_nodes := by
    apply h.bound
    have := List.getElem?_mem hent
    exact List.mem_map_of_mem Prod.fst this
  have h1 : Rep g { s with head := s.head + 1 } Q :=
    ⟨h.qn_len, h.qd_len, h.vis_len, h.tail_eq, h.qn_eq, h.qd_eq, h.nodup, h.bound, h.vis, h.ext⟩
  unfold bfsStep absExpand
  rw [hent]
  simp only
  by_cases hd : s.queue_depths.getD s.head 0 ≥ maxDepth
  · rw [if_pos hd, if_pos hd]
    exact ⟨h1, rfl⟩
  · rw [if_neg hd, if_neg hd]
    refine ⟨?_, ?_⟩
    · have := Rep.fold (s.queue_depths.getD s.head 0)
        (List.range' (g.row_ptr.getD (s.queue_nodes.getD s.head 0) 0)
          (g.row_ptr.getD (s.queue_nodes.getD s.head 0 + 1) 0 -
            g.row_ptr.getD (s.queue_nodes.getD s.head 0) 0))
        (by
          intro i hi
          apply hg.adj_lt hu
          rw [← hg.adj_map hu]
          exact List.mem_map_of_mem _ hi) h1
      rw [hg.adj_map hu] at this
      exact this
    · rw [foldl_bfsVisit_head]

/-- Running the main loop: a property of the state that survives every iteration and bounds
`tail` by `n` holds when the loop exits, and the loop exits within `n - head` iterations. -/
theorem bfsLoop_induct (g : SparseGraph) (maxDepth : Int) (n : Nat) (P : Bfs → Prop)
    (hstep : ∀ s, P s → s.head < s.tail →
      P (bfsStep g maxDepth s) ∧ (bfsStep g maxDepth s).head = s.head + 1)
    (hbound : ∀ s, P s → s.tail ≤ n) (fuel : Nat) (s : Bfs) (hs : P s)
    (hfuel : n - s.head ≤ fuel) :
    ∃ s', bfsLoop g maxDepth fuel s = some s' ∧ P s' ∧ s'.tail ≤ s'.head := by
  induction fuel generalizing s with
  | zero =>
    have := hbound s hs
    have hnot : ¬ s.head < s.tail := by omega
    exact ⟨s, by simp [bfsLoop, hnot], hs, by omega⟩
  | succ fuel ih =>
    by_cases hlt : s.head < s.tail
    · obtain ⟨hP, hh⟩ := hstep s hs hlt
      obtain ⟨s', h1, h2, h3⟩ := ih (bfsStep g maxDepth s) hP (by rw [hh]; omega)
      exact ⟨s', by simp [bfsLoop, hlt, h1], h2, h3⟩
    · exact ⟨s, by simp [bfsLoop, hlt], hs, by omega⟩

/-! ## Breadth-first search: correctness of the queue contents -/

theorem absFold_spec (d : Int) (ws : List Nat) (Q : List (Nat × Int)) :
    ∃ Nw, ws.foldl (absVisit d) Q = Q ++ Nw ∧ (∀ p, p ∈ Nw → p.2 = d + 1 ∧ p.1 ∈ ws) ∧
      (∀ w, w ∈ ws → w ∈ (Q ++ Nw).map Prod.fst) := by
  induction ws generalizing Q with
  | nil => exact ⟨[], by simp, by simp, by simp⟩
  | cons w ws ih =>
    rw [List.foldl_cons]
    by_cases hw : w ∈ Q.map Prod.fst
    · have hQ : absVisit d Q w = Q := by simp [absVisit, hw]
      rw [hQ]
      obtain ⟨N1, e1, a1, b1⟩ := ih Q
      refine ⟨N1, e1, ?_, ?_⟩
      · intro p hp; exact ⟨(a1 p hp).1, List.mem_cons_of_mem _ (a1 p hp).2⟩
      · intro w' hw'
        rcases List.mem_cons.mp hw' with e | e
        · subst e; rw [List.map_append, List.mem_append]; exact Or.inl hw
        · exact b1 w' e
    · have hQ : absVisit d Q w = Q ++ [(w, d + 1)] := by simp [absVisit, hw]
      rw [hQ]
      obtain ⟨N1, e1, a1, b1⟩ := ih (Q ++ [(w, d + 1)])
      rw [List.append_assoc] at e1 b1
      refine ⟨[(w, d + 1)] ++ N1, e1, ?_, ?_⟩
      · intro p hp
        rcases List.mem_append.mp hp with e | e
        · simp only [List.mem_singleton] at e
          subst e; exact ⟨rfl, List.mem_cons_self _ _⟩
        · exact ⟨(a1 p e).1, List.mem_cons_of_mem _ (a1 p e).2⟩
      · intro w' hw'
        rcases List.mem_cons.mp hw' with e | e
        · subst e
          simp only [List.map_append, List.mem_append, List.map_cons, List.map_nil,
            List.mem_singleton, List.mem_cons, true_or, or_true]
        · exact b1 w' e

theorem mem_take_succ {α : Type} (l : List α) (h : Nat) (x : α) (hx : l[h]? = some x) (p : α) :
    p ∈ l.take (h + 1) ↔ p ∈ l.take h ∨ p = x := by
  rw [List.take_succ, hx]
  simp

theorem drop_eq_cons {α : Type} (l : List α) (h : Nat) (x : α) (hx : l[h]? = some x) :
    l.drop h = x :: l.drop (h + 1) := by
  have hlt : h < l.length := by
    rcases Nat.lt_or_ge h l.length with h' | h'
    · exact h'
    · rw [List.getElem?_eq_none h'] at hx; cases hx
  rw [List.drop_eq_getElem_cons hlt]
  rw [List.getElem?_eq_getElem hlt] at hx
  rw [Option.some.inj hx]

theorem AInv.ainv_init (g : SparseGraph) (start : Nat) (maxDepth : Int) :
    AInv g start maxDepth [(start, 0)] 0 := by
  refine ⟨by simp, rfl, ?_, by simp, ?_, by simp⟩
  · intro p hp
    simp only [List.mem_singleton] at hp
    subst hp
    exact ⟨0, rfl, Walk.refl, Or.inl rfl⟩
  · intro p hp q hq
    simp only [List.mem_singleton, List.drop_zero] at hp hq
    subst hp; subst hq
    simp

theorem AInv.ainv_step {g start maxDepth Q h} (hI : AInv g start maxDepth Q h) (hlt : h < Q.length) :
    AInv g start maxDepth (absExpand g maxDepth Q h) (h + 1) := by
  obtain ⟨⟨u, d⟩, hent⟩ : ∃ x, Q[h]? = some x := ⟨Q[h], List.getElem?_eq_getElem hlt⟩
  have hmemQ : (u, d) ∈ Q := List.getElem?_mem hent
  have hdrop := drop_eq_cons Q h (u, d) hent
  have hafter : ∀ q, q ∈ Q.drop (h + 1) → d ≤ q.2 := by
    have hs : (Q.drop h).Pairwise (fun a b => a.2 ≤ b.2) :=
      hI.sorted.sublist (List.drop_sublist _ _)
    rw [hdrop, List.pairwise_cons] at hs
    exact fun q hq => hs.1 q hq
  have hle : ∀ p, p ∈ Q → p.2 ≤ d + 1 := by
    intro p hp
    exact hI.near p hp (u, d) (by rw [hdrop]; exact List.mem_cons_self _ _)
  unfold absExpand
  rw [hent]
  simp only
  by_cases hd : d ≥ maxDepth
  · rw [if_pos hd]
    refine ⟨hlt, hI.start0, hI.walk, hI.sorted, ?_, ?_⟩
    · intro p hp q hq
      exact hI.near p hp q (by rw [hdrop]; exact List.mem_cons_of_mem _ hq)
    · intro p hp hpd w hw
      rcases (mem_take_succ Q h (u, d) hent p).mp hp with e | e
      · exact hI.closed p e hpd w hw
      · subst e
        exact absurd hpd (by simp only; omega)
  · rw [if_neg hd]
    obtain ⟨Nw, eN, aN, bN⟩ := absFold_spec d (g.adj u) Q
    rw [eN]
    obtain ⟨k, hk, hwalk, _⟩ := hI.walk (u, d) hmemQ
    simp only at hk hwalk
    refine ⟨?_, ?_, ?_, ?_, ?_, ?_⟩
    · rw [List.length_append]; omega
    · rw [List.getElem?_append_left (by omega)]; exact hI.start0
    · intro p hp
      rcases List.mem_append.mp hp with e | e
      · exact hI.walk p e
      · obtain ⟨e1, e2⟩ := aN p e
        refine ⟨k + 1, by rw [e1, hk]; rfl, Walk.step hwalk e2, Or.inr ?_⟩
        push_cast
        omega
    · rw [List.pairwise_append]
      refine ⟨hI.sorted, ?_, ?_⟩
      · rw [List.pairwise_iff_forall_sublist]
        intro a b hab
        have ha := (aN a (hab.subset (List.mem_cons_self _ _))).1
        have hb := (aN b (hab.subset (List.mem_cons_of_mem _ (List.mem_cons_self _ _)))).1
        omega
      · intro a ha b hb
        have := hle a ha
        have := (aN b hb).1
        omega
    · intro p hp q hq
      rw [List.drop_append_of_le_length (by omega)] at hq
      have hq' : d ≤ q.2 := by
        rcases List.mem_append.mp hq with e | e
        · exact hafter q e
        · have := (aN q e).1; omega
      have hp' : p.2 ≤ d + 1 := by
        rcases List.mem_append.mp hp with e | e
        · exact hle p e
        · have := (aN p e).1; omega
      omega
    · intro p hp hpd w hw
      rw [List.take_append_of_le_length (by omega)] at hp
      rcases (mem_take_succ Q h (u, d) hent p).mp hp with e | e
      · obtain ⟨q, hq, h1, h2⟩ := hI.closed p e hpd w hw
        exact ⟨q, List.mem_append_left _ hq, h1, h2⟩
      · subst e
        have hwm := bN w hw
        rw [List.mem_map] at hwm
        obtain ⟨q, hq, hq1⟩ := hwm
        refine ⟨q, hq, hq1, ?_⟩
        rcases List.mem_append.mp hq with e | e
        · exact hle q e
        · have := (aN q e).1
          simp only; omega

theorem AInv.complete {g start maxDepth Q} (hI : AInv g start maxDepth Q Q.length)
    {j : Nat} {k : Nat} (hw : Walk (fun a b => b ∈ g.adj a) start j k)
    (hk : (k : Int) ≤ maxDepth) : ∃ q, q ∈ Q ∧ q.1 = j ∧ q.2 ≤ (k : Int) := by
  induction hw with
  | refl => exact ⟨(start, 0), List.getElem?_mem hI.start0, rfl, by simp⟩
  | @step b c k' hw' hedge ih =>
    obtain ⟨q, hq, h1, h2⟩ := ih (by push_cast at hk; omega)
    have hqt : q ∈ Q.take Q.length := by rw [List.take_length]; exact hq
    obtain ⟨q', hq', h1', h2'⟩ := hI.closed q hqt (by push_cast at hk; omega) c (h1 ▸ hedge)
    exact ⟨q', hq', h1', by push_cast; omega⟩

/-! ## Breadth-first search on a loaded graph -/

theorem LoadSpec.ext_injOn {es g} (h : LoadSpec es g) {i j : Nat} (hi : i < g.num_nodes)
    (hj : j < g.num_nodes) (e : g.getExternalId (i : Int) = g.getExternalId (j : Int)) :
    i = j := by
  have h1 := h.find_ext hi
  have h2 := h.find_ext hj
  rw [e, h2] at h1
  exact (Option.some.inj h1).symm

theorem Rep.rep_init {es g} (hg : LoadSpec es g) {x : Int} {start : Nat}
    (hx : mapFind g.id_map x = some start) :
    Rep g
      { queue_nodes := (List.replicate g.num_nodes 0).set 0 start
        queue_depths := (List.replicate g.num_nodes 0).set 0 0
        head := 0
        tail := 1
        visited := (List.replicate g.num_nodes false).set start true
        visited_ext := [x] }
      [(start, 0)] := by
  have hs : start < g.num_nodes := (hg.mem_of_find hx).2.1
  have hN : 0 < g.num_nodes := by omega
  refine ⟨by simp, by simp, by simp, rfl, ?_, ?_, by simp, ?_, ?_, ?_⟩
  · simp only
    rw [take_succ_set _ _ _ (by simpa using hN)]
    simp
  · simp only
    rw [take_succ_set _ _ _ (by simpa using hN)]
    simp
  · intro v hv
    simp only [List.map_cons, List.map_nil, List.mem_singleton] at hv
    subst hv; exact hs
  · intro v hv
    simp only
    rw [getD_set_true _ _ _ (by simpa using hs)]
    simp [List.getElem?_replicate, hv]
  · simp only [List.map_cons, List.map_nil, hg.ext_of_find hx]

/-- The run of `bfs` from a known start node: it finishes within `num_nodes` iterations and
returns the external ids of the final queue contents `Q`, which satisfy the loop invariant
with the head at the end of the queue. -/
theorem LoadSpec.bfs_run {es g} (hg : LoadSpec es g) {x : Int} {start : Nat}
    (hx : mapFind g.id_map x = some start) (maxDepth : Int) :
    ∃ Q : List (Nat × Int),
      g.bfs x maxDepth = some (Q.map (fun p => g.getExternalId (p.1 : Int))) ∧
      (Q.map Prod.fst).Nodup ∧ (∀ v, v ∈ Q.map Prod.fst → v < g.num_nodes) ∧
      AInv g start maxDepth Q Q.length := by
  have hne : ¬ ((start : Int) = -1) := by omega
  have key := bfsLoop_induct g maxDepth g.num_nodes
    (fun s => ∃ Q, Rep g s Q ∧ AInv g start maxDepth Q s.head)
    (by
      rintro s ⟨Q, hR, hA⟩ hlt
      obtain ⟨hR', hh⟩ := hR.rep_step hg maxDepth hlt
      refine ⟨⟨_, hR', ?_⟩, hh⟩
      rw [hh]
      exact hA.ainv_step (hR.tail_eq ▸ hlt))
    (by rintro s ⟨Q, hR, _⟩; exact hR.tail_le)
    g.num_nodes _ ⟨[(start, 0)], Rep.rep_init hg hx, AInv.ainv_init g start maxDepth⟩ (by simp)
  obtain ⟨s', hrun, ⟨Q, hR, hA⟩, hdone⟩ := key
  have hhead : s'.head = Q.length := by
    have := hA.head_le
    have := hR.tail_eq
    omega
  refine ⟨Q, ?_, hR.nodup, hR.bound, hhead ▸ hA⟩
  unfold SparseGraph.bfs SparseGraph.bfsFuel
  simp only [getInternalId_of_find hx, hne, if_false, Int.toNat_ofNat]
  rw [hrun]
  simp [hR.ext]

theorem LoadSpec.mem_adj {es g} (h : LoadSpec es g) {u w : Nat} (hu : u < g.num_nodes) :
    w ∈ g.adj u ↔ ∃ p, p ∈ es ∧ idOf g.id_map p.1 = u ∧ idOf g.id_map p.2 = w := by
  rw [h.adj_eq hu, List.mem_map]
  constructor
  · rintro ⟨e, he, rfl⟩
    rw [List.mem_filter, (sortedEdges_perm _ _).mem_iff, List.mem_map] at he
    obtain ⟨⟨p, hp, rfl⟩, hu'⟩ := he
    exact ⟨p, hp, by simpa [toEdge] using hu', rfl⟩
  · rintro ⟨p, hp, h1, h2⟩
    refine ⟨toEdge g.id_map p, ?_, by simpa [toEdge] using h2⟩
    rw [List.mem_filter, (sortedEdges_perm _ _).mem_iff]
    exact ⟨List.mem_map_of_mem _ hp, by simpa [toEdge] using h1⟩

theorem LoadSpec.idOf_of_find {g : SparseGraph} {x : Int} {i : Nat}
    (hi : mapFind g.id_map x = some i) : idOf g.id_map x = i := by
  simp [idOf, hi]

theorem LoadSpec.walk_to_int {es g} (h : LoadSpec es g) {x y : Int} {k : Nat} {i : Nat}
    (hw : Walk (fun a b => (a, b) ∈ es) x y k) (hx : mapFind g.id_map x = some i) :
    ∃ j, mapFind g.id_map y = some j ∧ Walk (fun a b => b ∈ g.adj a) i j k := by
  induction hw with
  | refl => exact ⟨i, hx, Walk.refl⟩
  | @step b c k' _ hedge ih =>
    obtain ⟨jb, hb, hwalk⟩ := ih
    obtain ⟨jc, _, hc, _⟩ := h.find_of_mem (mem_endpoints hedge).2
    refine ⟨jc, hc, Walk.step hwalk ?_⟩
    rw [h.mem_adj (h.mem_of_find hb).2.1]
    exact ⟨(b, c), hedge, LoadSpec.idOf_of_find hb, LoadSpec.idOf_of_find hc⟩

theorem LoadSpec.walk_to_ext {es g} (h : LoadSpec es g) {i j : Nat} {k : Nat}
    (hw : Walk (fun a b => b ∈ g.adj a) i j k) (hi : i < g.num_nodes) :
    j < g.num_nodes ∧
      Walk (fun a b => (a, b) ∈ es) (g.getExternalId (i : Int)) (g.getExternalId (j : Int)) k := by
  induction hw with
  | refl => exact ⟨hi, Walk.refl⟩
  | @step b c k' _ hedge ih =>
    obtain ⟨hb, hwalk⟩ := ih
    refine ⟨h.adj_lt hb hedge, Walk.step hwalk ?_⟩
    obtain ⟨p, hp, h1, h2⟩ := (h.mem_adj hb).mp hedge
    have e1 := h.ext_idOf (mem_endpoints hp).1
    have e2 := h.ext_idOf (mem_endpoints hp).2
    rw [h1] at e1
    rw [h2] at e2
    rw [e1, e2]
    exact hp

/-! ## Claims about `bfs` -/

/-- C3: for a start id `x` present in the loaded graph and `maxDepth ≥ 0`, `bfs` returns, and
the ids it returns are exactly the nodes reachable from `x` by a directed path of at most
`maxDepth` parsed edges (so nodes at distance exactly `maxDepth` are included and nodes
farther away are not). -/
theorem C3_bfs_reachable_set (content : List Char) (x maxDepth : Int)
    (hx : x ∈ endpoints (parsedEdges (getlines content))) (hd : 0 ≤ maxDepth) :
    ∃ r, (load content).bfs x maxDepth = some r ∧
      ∀ y, y ∈ r ↔ ∃ k : Nat, (k : Int) ≤ maxDepth ∧
        Walk (fun a b => (a, b) ∈ parsedEdges (getlines content)) x y k := by
  have h := load_spec content
  obtain ⟨start, hs, hf, _⟩ := h.find_of_mem hx
  obtain ⟨Q, hrun, _, _, hA⟩ := h.bfs_run hf maxDepth
  refine ⟨_, hrun, ?_⟩
  intro y
  constructor
  · intro hy
    rw [List.mem_map] at hy
    obtain ⟨p, hp, rfl⟩ := hy
    obtain ⟨k, _, hwalk, hk⟩ := hA.walk p hp
    refine ⟨k, by omega, ?_⟩
    have := (h.walk_to_ext hwalk hs).2
    rwa [h.ext_of_find hf] at this
  · rintro ⟨k, hk, hwalk⟩
    obtain ⟨j, hj, hwi⟩ := h.walk_to_int hwalk hf
    obtain ⟨q, hq, h1, _⟩ := hA.complete hwi hk
    rw [List.mem_map]
    exact ⟨q, hq, by rw [h1]; exact h.ext_of_find hj⟩

/-- Witness for C3 on the three-line sample, from external id `1` with `maxDepth = 1`. -/
theorem C3_bfs_reachable_set_witness :
    ∃ r, (load ("1 2\n2 3\n1 3\n").toList).bfs 1 1 = some r ∧
      ∀ y, y ∈ r ↔ ∃ k : Nat, (k : Int) ≤ 1 ∧
        Walk (fun a b => (a, b) ∈ parsedEdges (getlines ("1 2\n2 3\n1 3\n").toList)) 1 y k :=
  C3_bfs_reachable_set ("1 2\n2 3\n1 3\n").toList 1 1 (by decide) (by decide)

/-- C4: for every start id and every `maxDepth`, `bfs` returns a sequence that contains no
id twice and whose length is at most `getNumNodes()`. -/
theorem C4_bfs_no_duplicates (content : List Char) (x maxDepth : Int) :
    ∃ r, (load content).bfs x maxDepth = some r ∧ r.Nodup ∧
      (r.length : Int) ≤ (load content).getNumNodes := by
  have h := load_spec content
  cases hf : mapFind (load content).id_map x with
  | none =>
    refine ⟨[], ?_, List.nodup_nil, ?_⟩
    · simp [SparseGraph.bfs, SparseGraph.bfsFuel, getInternalId_of_none hf]
    · simp [SparseGraph.getNumNodes]
  | some start =>
    obtain ⟨Q, hrun, hnd, hb, _⟩ := h.bfs_run hf maxDepth
    refine ⟨_, hrun, ?_, ?_⟩
    · have hnd' : Q.Nodup := List.Nodup.of_map _ hnd
      apply List.Nodup.map_on _ hnd'
      intro p hp q hq e
      have e' := h.ext_injOn (hb _ (List.mem_map_of_mem _ hp)) (hb _ (List.mem_map_of_mem _ hq)) e
      have hinj := List.inj_on_of_nodup_map hnd
      exact hinj hp hq e'
    · have := length_le_of_nodup_bound _ _ hnd hb
      simp only [List.length_map] at this ⊢
      simp only [SparseGraph.getNumNodes]
      exact_mod_cast this

/-- C5: for every external id `x` that appears in the loaded input, `bfs(x, 0)` returns
exactly `[x]`. -/
theorem C5_bfs_depth_zero (content : List Char) (x : Int)
    (hx : x ∈ endpoints (parsedEdges (getlines content))) :
    (load content).bfs x 0 = some [x] := by
  have h := load_spec content
  obtain ⟨start, hs, hf, _⟩ := h.find_of_mem hx
  have hne : ¬ ((start : Int) = -1) := by omega
  obtain ⟨n, hn⟩ : ∃ n, (load content).num_nodes = n + 1 :=
    ⟨(load content).num_nodes - 1, by omega⟩
  unfold SparseGraph.bfs SparseGraph.bfsFuel
  simp only [getInternalId_of_find hf, hne, if_false, Int.toNat_ofNat, hn]
  have hstep : ∀ s : Bfs, s.queue_depths.getD s.head 0 = 0 →
      bfsStep (load content) 0 s = { s with head := s.head + 1 } := by
    intro s hs0
    unfold bfsStep
    simp only [hs0, ge_iff_le, le_refl, if_true]
  rw [bfsLoop]
  simp only [Nat.lt_one_iff, if_true]
  rw [hstep _ (by simp [List.replicate_succ])]
  cases n <;> simp [bfsLoop]

/-- Witness for C5 on the three-line sample, at external id `2`. -/
theorem C5_bfs_depth_zero_witness :
    (load ("1 2\n2 3\n1 3\n").toList).bfs 2 0 = some [2] :=
  C5_bfs_depth_zero ("1 2\n2 3\n1 3\n").toList 2 (by decide)

/-! ## Lines that are not edges -/

theorem parseLine_of_parsePair {line : List Char} (h : parsePair line = none) :
    parseLine line = none := by
  cases line with
  | nil => rfl
  | cons c cs =>
    by_cases hc : c = '#'
    · simp [parseLine, hc]
    · simp [parseLine, hc, h]

theorem pass1_skip (pre post : List (List Char)) (line : List Char)
    (st : Nat × List (Int × Nat)) (hp : parseLine line = none) :
    pass1 (pre ++ line :: post) st = pass1 (pre ++ post) st := by
  obtain ⟨c, m⟩ := st
  rw [pass1_eq, pass1_eq]
  have : parsedEdges (pre ++ line :: post) = parsedEdges (pre ++ post) := by
    simp [parsedEdges, List.filterMap_append, List.filterMap_cons, hp]
  rw [this]

theorem pass2_skip (pre post : List (List Char)) (line : List Char) (m : List (Int × Nat))
    (acc : List Edge) (hp : parseLine line = none) :
    pass2 (pre ++ line :: post) m acc = pass2 (pre ++ post) m acc := by
  induction pre generalizing m acc with
  | nil => simp [pass2, hp]
  | cons l pre ih =>
    simp only [List.cons_append]
    unfold pass2
    cases parseLine l with
    | none => exact ih m acc
    | some e => exact ih _ _

theorem loadLines_skip (g : SparseGraph) (pre post : List (List Char)) (line : List Char)
    (hp : parseLine line = none) : loadLines g (pre ++ line :: post) = loadLines g (pre ++ post) := by
  unfold loadLines
  simp only [pass1_skip pre post line _ hp, pass2_skip pre post line _ _ hp]

/-- C8 as stated fails: the line `1 2 3` is non-empty, does not start with `#` and is not
exactly two whitespace-separated integers, yet loading it counts one edge, assigns internal
ids to `1` and `2` and makes `2` a neighbour of `1` (the empty file has no edge). -/
theorem C8_counterexample :
    ("1 2 3").toList ≠ [] ∧ ("1 2 3").toList.head? ≠ some '#' ∧
    specTwoIntegers ("1 2 3").toList = false ∧
    (load ("1 2 3").toList).getNumEdges = 1 ∧
    (load ("1 2 3").toList).getInternalId 1 = 0 ∧
    (load ("1 2 3").toList).getInternalId 2 = 1 ∧
    (load ("1 2 3").toList).getNeighbors 1 = [2] ∧
    (load []).getNumEdges = 0 := by
  decide

/-! ## Degrees and the remaining structural claims -/

theorem LoadSpec.find_none_of_not_mem {es g} (h : LoadSpec es g) {x : Int}
    (hx : x ∉ endpoints es) : mapFind g.id_map x = none := by
  rw [h.idinv.find_none, mem_firstOcc]
  exact hx

theorem bfs_of_none {g : SparseGraph} {x : Int} (hf : mapFind g.id_map x = none) (fuel : Nat)
    (d : Int) : g.bfsFuel fuel x d = some [] := by
  simp [SparseGraph.bfsFuel, getInternalId_of_none hf]

theorem getDegree_of_none {g : SparseGraph} {x : Int} (hf : mapFind g.id_map x = none) :
    g.getDegree x = 0 := by
  simp [SparseGraph.getDegree, getInternalId_of_none hf]

theorem getNeighbors_of_none {g : SparseGraph} {x : Int} (hf : mapFind g.id_map x = none) :
    g.getNeighbors x = [] := by
  simp [SparseGraph.getNeighbors, getInternalId_of_none hf]

theorem getDegree_of_find {g : SparseGraph} {x : Int} {i : Nat}
    (hf : mapFind g.id_map x = some i) : g.getDegree x = g.rowDegree i := by
  have hne : ¬ ((i : Int) = -1) := by omega
  simp only [SparseGraph.getDegree, getInternalId_of_find hf, hne, if_false, Int.toNat_ofNat,
    SparseGraph.rowDegree]

theorem LoadSpec.rowDegree_eq_length {es g} (h : LoadSpec es g) {i : Nat}
    (hi : i < g.num_nodes) : g.rowDegree i = ((g.adj i).length : Int) := by
  have hb := h.slice_bound hi
  have hi1 : i + 1 ≤ g.num_nodes := hi
  have hm : g.row_ptr.getD i 0 ≤ g.row_ptr.getD (i + 1) 0 := by
    rw [h.rp_getD (le_of_lt hi), h.rp_getD hi1]
    exact before_mono _ _
  unfold SparseGraph.rowDegree SparseGraph.adj
  rw [List.length_take, List.length_drop]
  omega

theorem LoadSpec.adj_length {es g} (h : LoadSpec es g) {x : Int} {i : Nat}
    (hf : mapFind g.id_map x = some i) :
    (g.adj i).length = es.countP (fun e => decide (e.1 = x)) := by
  have hi := (h.mem_of_find hf).2.1
  rw [h.adj_eq hi, List.length_map, ← List.countP_eq_length_filter,
    (sortedEdges_perm _ _).countP_eq, List.countP_map]
  apply List.countP_congr
  intro p hp
  have e1 := h.idOf_eq_iff (mem_endpoints hp).1 hf
  simp only [Function.comp, toEdge, decide_eq_true_eq, e1]

theorem LoadSpec.col_length {es g} (h : LoadSpec es g) : g.col_indices.length = g.num_edges := by
  rw [h.col, List.length_map, sortedEdges_length, h.edges]

theorem LoadSpec.col_lt {es g} (h : LoadSpec es g) {c : Nat} (hc : c ∈ g.col_indices) :
    c < g.num_nodes := by
  rw [h.col, List.mem_map] at hc
  obtain ⟨e, he, rfl⟩ := hc
  rw [h.id_map_eq] at he
  have := (sortedEdges_bound es he).2
  rw [← h.id_map_eq, h.idinv.length, ← h.nodes] at this
  exact this

theorem LoadSpec.rowDegree_sum {es g} (h : LoadSpec es g) (n : Nat) (hn : n ≤ g.num_nodes) :
    ((List.range n).map g.rowDegree).sum = (g.row_ptr.getD n 0 : Int) := by
  induction n with
  | zero =>
    rw [h.rp_getD (Nat.zero_le _)]
    simp [before]
  | succ n ih =>
    rw [List.range_succ, List.map_append, List.sum_append, ih (by omega)]
    simp only [List.map_cons, List.map_nil, List.sum_cons, List.sum_nil, add_zero,
      SparseGraph.rowDegree]
    omega

theorem LoadSpec.nodes_eq_range {es g} (h : LoadSpec es g) :
    firstOcc (endpoints es) =
      (List.range g.num_nodes).map (fun (i : Nat) => g.getExternalId (i : Int)) := by
  apply List.ext_getElem?
  intro i
  rcases Nat.lt_or_ge i g.num_nodes with hi | hi
  · rw [h.ext_get hi, List.getElem?_map, List.getElem?_range hi]
    rfl
  · rw [List.getElem?_eq_none (by rw [← h.nodes]; exact hi),
      List.getElem?_eq_none (by simpa using hi)]

theorem LoadSpec.degree_sum {es g} (h : LoadSpec es g) :
    ((firstOcc (endpoints es)).map g.getDegree).sum = (g.num_edges : Int) := by
  rw [h.nodes_eq_range, List.map_map]
  have e : (List.range g.num_nodes).map
      (g.getDegree ∘ fun (i : Nat) => g.getExternalId (i : Int)) =
      (List.range g.num_nodes).map g.rowDegree := by
    apply List.map_congr_left
    intro i hi
    exact getDegree_of_find (h.find_ext (List.mem_range.mp hi))
  rw [e, h.rowDegree_sum _ (le_refl _), h.rp_getD (le_refl _)]
  congr 1
  rw [before_eq_length, sortedEdges_length, h.edges]
  intro e he
  rw [h.id_map_eq] at he
  have := (sortedEdges_bound es he).1
  rw [← h.id_map_eq, h.idinv.length, ← h.nodes] at this
  exact this

theorem LoadSpec.adj_sorted {es g} (h : LoadSpec es g) {i : Nat} (hi : i < g.num_nodes) :
    (g.adj i).Pairwise (fun a b => a ≤ b) := by
  rw [h.adj_eq hi, List.pairwise_map]
  have hs : ((sortedEdges g.id_map es).filter (fun e => decide (e.u = i))).Pairwise Edge.le :=
    (sortedEdges_sorted _ _).sublist (List.filter_sublist _)
  refine List.Pairwise.imp_of_mem ?_ hs
  intro a b ha hb hab
  have ha' := (List.mem_filter.mp ha).2
  have hb' := (List.mem_filter.mp hb).2
  simp only [decide_eq_true_eq] at ha' hb'
  rw [Edge.le_iff] at hab
  omega

theorem parsedEdges_nil_of_comments (lines : List (List Char))
    (hc : ∀ l, l ∈ lines → l = [] ∨ l.head? = some '#') : parsedEdges lines = [] := by
  unfold parsedEdges
  rw [List.filterMap_eq_nil_iff]
  intro l hl
  rcases hc l hl with e | e
  · subst e; rfl
  · cases l with
    | nil => rfl
    | cons c cs =>
      have : c = '#' := by simpa using e
      simp [parseLine, this]

/-- C11: for an external id `x` that does not appear in the loaded input, `getInternalId(x)`
is `-1`, `getDegree(x)` is `0`, `getNeighbors(x)` is empty and `bfs(x, d)` returns the empty
sequence for every `d`. -/
theorem C11_unknown_id_queries (content : List Char) (x : Int)
    (hx : x ∉ endpoints (parsedEdges (getlines content))) :
    (load content).getInternalId x = -1 ∧ (load content).getDegree x = 0 ∧
    (load content).getNeighbors x = [] ∧ ∀ d : Int, (load content).bfs x d = some [] := by
  have hf := (load_spec content).find_none_of_not_mem hx
  exact ⟨getInternalId_of_none hf, getDegree_of_none hf, getNeighbors_of_none hf,
    fun d => bfs_of_none hf _ d⟩

/-- Witness for C11 on the three-line sample, at the absent external id `7`. -/
theorem C11_unknown_id_queries_witness :
    (load ("1 2\n2 3\n1 3\n").toList).getInternalId 7 = -1 ∧
    (load ("1 2\n2 3\n1 3\n").toList).getDegree 7 = 0 ∧
    (load ("1 2\n2 3\n1 3\n").toList).getNeighbors 7 = [] ∧
    ∀ d : Int, (load ("1 2\n2 3\n1 3\n").toList).bfs 7 d = some [] :=
  C11_unknown_id_queries ("1 2\n2 3\n1 3\n").toList 7 (by decide)

/-- C12: an input made only of empty lines and lines starting with `#` loads to a graph with
`getNumNodes() = 0` and `getNumEdges() = 0` on which every query gives its empty or sentinel
result: `bfs` and `getNeighbors` are empty, `getDegree` is `0`, `getInternalId` and
`getExternalId` are `-1`, and `getMaxDegreeNode()` is `-1`. -/
theorem C12_comment_only_input (content : List Char)
    (hc : ∀ l, l ∈ getlines content → l = [] ∨ l.head? = some '#') :
    (load content).getNumNodes = 0 ∧ (load content).getNumEdges = 0 ∧
    (∀ x d : Int, (load content).bfs x d = some []) ∧
    (∀ x : Int, (load content).getNeighbors x = []) ∧
    (∀ x : Int, (load content).getDegree x = 0) ∧
    (∀ x : Int, (load content).getInternalId x = -1) ∧
    (∀ i : Int, (load content).getExternalId i = -1) ∧
    (load content).getMaxDegreeNode = -1 := by
  have h := load_spec content
  rw [parsedEdges_nil_of_comments _ hc] at h
  have hN : (load content).num_nodes = 0 := h.nodes
  have hE : (load content).num_edges = 0 := h.edges
  have hf : ∀ x : Int, mapFind (load content).id_map x = none := by
    intro x
    rw [h.id_map_eq]; rfl
  have hext : ∀ i : Int, (load content).getExternalId i = -1 := by
    intro i
    have : ¬ (0 ≤ i ∧ i < ((load content).num_nodes : Int)) := by rw [hN]; omega
    simp only [SparseGraph.getExternalId, this, if_false]
  refine ⟨by simp [SparseGraph.getNumNodes, hN], by simp [SparseGraph.getNumEdges, hE],
    fun x d => bfs_of_none (hf x) _ d, fun x => getNeighbors_of_none (hf x),
    fun x => getDegree_of_none (hf x), fun x => getInternalId_of_none (hf x), hext, ?_⟩
  rw [getMaxDegreeNode_eq]
  exact hext _

/-- Witness for C12 on an input of two comment lines around a blank line. -/
theorem C12_comment_only_input_witness :
    (load ("# a\n\n#b\n").toList).getNumNodes = 0 ∧
    (load ("# a\n\n#b\n").toList).getNumEdges = 0 ∧
    (∀ x d : Int, (load ("# a\n\n#b\n").toList).bfs x d = some []) ∧
    (∀ x : Int, (load ("# a\n\n#b\n").toList).getNeighbors x = []) ∧
    (∀ x : Int, (load ("# a\n\n#b\n").toList).getDegree x = 0) ∧
    (∀ x : Int, (load ("# a\n\n#b\n").toList).getInternalId x = -1) ∧
    (∀ i : Int, (load ("# a\n\n#b\n").toList).getExternalId i = -1) ∧
    (load ("# a\n\n#b\n").toList).getMaxDegreeNode = -1 :=
  C12_comment_only_input ("# a\n\n#b\n").toList (by decide)

/-- C13: loading the three lines `1 2`, `2 3`, `1 3` gives row offsets `[0,2,3,3]` and
column indices `[1,2,2]`, `getDegree(1) = 2`, `getNeighbors(1) = [2,3]`,
`bfs(1, 1) = [1,2,3]` and `getMaxDegreeNode() = 1`. -/
theorem C13_sample_scenario :
    (load ("1 2\n2 3\n1 3\n").toList).row_ptr = [0, 2, 3, 3] ∧
    (load ("1 2\n2 3\n1 3\n").toList).col_indices = [1, 2, 2] ∧
    (load ("1 2\n2 3\n1 3\n").toList).getDegree 1 = 2 ∧
    (load ("1 2\n2 3\n1 3\n").toList).getNeighbors 1 = [2, 3] ∧
    (load ("1 2\n2 3\n1 3\n").toList).bfs 1 1 = some [1, 2, 3] ∧
    (load ("1 2\n2 3\n1 3\n").toList).getMaxDegreeNode = 1 := by
  decide

/-- C15: for an external id `x` present in the graph, with internal id `i`,
`getNeighbors(x)` is the slice `col_indices[row_ptr[i] .. row_ptr[i+1])` mapped through
`getExternalId`, and mapping it back through `getInternalId` gives a non-decreasing
sequence of internal ids. -/
theorem C15_neighbors_slice_sorted (content : List Char) (x : Int)
    (hx : x ∈ endpoints (parsedEdges (getlines content))) :
    ∃ i : Nat, (load content).getInternalId x = (i : Int) ∧
      (load content).getNeighbors x =
        (((load content).col_indices.drop ((load content).row_ptr.getD i 0)).take
          ((load content).row_ptr.getD (i + 1) 0 - (load content).row_ptr.getD i 0)).map
          (fun (v : Nat) => (load content).getExternalId (v : Int)) ∧
      (((load content).getNeighbors x).map (load content).getInternalId).Pairwise
        (fun a b => a ≤ b) := by
  have h := load_spec content
  obtain ⟨i, hi, hf, _⟩ := h.find_of_mem hx
  refine ⟨i, getInternalId_of_find hf, h.getNeighbors_eq hf, ?_⟩
  rw [h.getNeighbors_eq hf, List.map_map, List.pairwise_map]
  refine List.Pairwise.imp_of_mem ?_ (h.adj_sorted hi)
  intro a b ha hb hab
  simp only [Function.comp, getInternalId_of_find (h.find_ext (h.adj_lt hi ha)),
    getInternalId_of_find (h.find_ext (h.adj_lt hi hb))]
  exact_mod_cast hab

/-- Witness for C15 on the input `5 9 / 5 7 / 7 5`, at external id `5`. -/
theorem C15_neighbors_slice_sorted_witness :
    ∃ i : Nat, (load ("5 9\n5 7\n7 5\n").toList).getInternalId 5 = (i : Int) ∧
      (load ("5 9\n5 7\n7 5\n").toList).getNeighbors 5 =
        (((load ("5 9\n5 7\n7 5\n").toList).col_indices.drop
            ((load ("5 9\n5 7\n7 5\n").toList).row_ptr.getD i 0)).take
          ((load ("5 9\n5 7\n7 5\n").toList).row_ptr.getD (i + 1) 0 -
            (load ("5 9\n5 7\n7 5\n").toList).row_ptr.getD i 0)).map
          (fun (v : Nat) => (load ("5 9\n5 7\n7 5\n").toList).getExternalId (v : Int)) ∧
      (((load ("5 9\n5 7\n7 5\n").toList).getNeighbors 5).map
        (load ("5 9\n5 7\n7 5\n").toList).getInternalId).Pairwise (fun a b => a ≤ b) :=
  C15_neighbors_slice_sorted ("5 9\n5 7\n7 5\n").toList 5 (by decide)

/-- C16: `col_indices` has exactly `getNumEdges()` entries and every entry is an internal
id in `[0, getNumNodes())`. -/
theorem C16_col_indices_range (content : List Char) :
    ((load content).col_indices.length : Int) = (load content).getNumEdges ∧
    ∀ c : Nat, c ∈ (load content).col_indices →
      (0 : Int) ≤ (c : Int) ∧ (c : Int) < (load content).getNumNodes := by
  have h := load_spec content
  refine ⟨by simp [SparseGraph.getNumEdges, h.col_length], ?_⟩
  intro c hc
  have := h.col_lt hc
  exact ⟨Int.ofNat_nonneg c, by simpa [SparseGraph.getNumNodes] using this⟩

/-- Witness for C16 on the three-line sample, at the entry `2`. -/
theorem C16_col_indices_range_witness :
    (0 : Int) ≤ ((2 : Nat) : Int) ∧
      ((2 : Nat) : Int) < (load ("1 2\n2 3\n1 3\n").toList).getNumNodes :=
  (C16_col_indices_range ("1 2\n2 3\n1 3\n").toList).2 2 (by decide)

/-- C20: for an external id `x` present in the graph, `getDegree(x)` is the number of parsed
edges whose source is `x` (repeated edges and self-loops counted) and equals the length of
`getNeighbors(x)`; the degrees of all nodes sum to `getNumEdges()`. -/
theorem C20_degree_counts (content : List Char) (x : Int)
    (hx : x ∈ endpoints (parsedEdges (getlines content))) :
    (load content).getDegree x =
      (((parsedEdges (getlines content)).countP (fun e => decide (e.1 = x)) : Nat) : Int) ∧
    (load content).getDegree x = (((load content).getNeighbors x).length : Int) ∧
    ((firstOcc (endpoints (parsedEdges (getlines content)))).map (load content).getDegree).sum =
      (load content).getNumEdges := by
  have h := load_spec content
  obtain ⟨i, hi, hf, _⟩ := h.find_of_mem hx
  refine ⟨?_, ?_, h.degree_sum⟩
  · rw [getDegree_of_find hf, h.rowDegree_eq_length hi, h.adj_length hf]
  · rw [getDegree_of_find hf, h.rowDegree_eq_length hi, h.getNeighbors_eq hf, List.length_map]

/-- Witness for C20 on an input with a repeated edge and a self-loop, at external id `4`. -/
theorem C20_degree_counts_witness :
    (load ("4 5\n4 5\n4 4\n5 4\n").toList).getDegree 4 =
      (((parsedEdges (getlines ("4 5\n4 5\n4 4\n5 4\n").toList)).countP
        (fun e => decide (e.1 = 4)) : Nat) : Int) ∧
    (load ("4 5\n4 5\n4 4\n5 4\n").toList).getDegree 4 =
      (((load ("4 5\n4 5\n4 4\n5 4\n").toList).getNeighbors 4).length : Int) ∧
    ((firstOcc (endpoints (parsedEdges (getlines ("4 5\n4 5\n4 4\n5 4\n").toList)))).map
      (load ("4 5\n4 5\n4 4\n5 4\n").toList).getDegree).sum =
      (load ("4 5\n4 5\n4 4\n5 4\n").toList).getNumEdges :=
  C20_degree_counts ("4 5\n4 5\n4 4\n5 4\n").toList 4 (by decide)

/-! ## Termination and discovery order of `bfs` -/

theorem bfsLoop_mono (g : SparseGraph) (maxDepth : Int) (fuel k : Nat) (s s' : Bfs)
    (h : bfsLoop g maxDepth fuel s = some s') : bfsLoop g maxDepth (fuel + k) s = some s' := by
  induction fuel generalizing s with
  | zero =>
    by_cases hlt : s.head < s.tail
    · simp [bfsLoop, hlt] at h
    · simp only [bfsLoop, hlt, if_false] at h
      cases k <;> simp [bfsLoop, hlt, h]
  | succ fuel ih =>
    have e : fuel + 1 + k = (fuel + k) + 1 := by omega
    rw [e]
    by_cases hlt : s.head < s.tail
    · simp only [bfsLoop, hlt, if_true] at h ⊢
      exact ih _ h
    · simp only [bfsLoop, hlt, if_false] at h ⊢
      exact h

theorem bfsFuel_mono (g : SparseGraph) (fuel fuel' : Nat) (x maxDepth : Int) (r : List Int)
    (hle : fuel ≤ fuel') (h : g.bfsFuel fuel x maxDepth = some r) :
    g.bfsFuel fuel' x maxDepth = some r := by
  obtain ⟨k, rfl⟩ : ∃ k, fuel' = fuel + k := ⟨fuel' - fuel, by omega⟩
  unfold SparseGraph.bfsFuel at h ⊢
  simp only at h ⊢
  split
  · rename_i hs
    simpa [hs] using h
  · rename_i hs
    simp only [hs, if_false, Option.map_eq_some'] at h
    obtain ⟨s', h1, h2⟩ := h
    rw [bfsLoop_mono g maxDepth fuel k _ s' h1]
    simp [h2]

theorem AInv.depth_is_dist {g start maxDepth Q} (hI : AInv g start maxDepth Q Q.length)
    (hnd : (Q.map Prod.fst).Nodup) {p : Nat × Int} (hp : p ∈ Q) :
    ∃ k : Nat, p.2 = (k : Int) ∧ IsDist (fun a b => b ∈ g.adj a) start p.1 k := by
  obtain ⟨k, hk, hwalk, hbound⟩ := hI.walk p hp
  refine ⟨k, hk, hwalk, ?_⟩
  intro k' hw'
  by_cases hle : (k' : Int) ≤ maxDepth
  · obtain ⟨q, hq, h1, h2⟩ := hI.complete hw' hle
    have hqp : q = p := List.inj_on_of_nodup_map hnd hq hp h1
    subst hqp
    omega
  · omega

theorem LoadSpec.dist_to_ext {es g} (h : LoadSpec es g) {x : Int} {start j k : Nat}
    (hx : mapFind g.id_map x = some start)
    (hd : IsDist (fun a b => b ∈ g.adj a) start j k) :
    IsDist (fun a b => (a, b) ∈ es) x (g.getExternalId (j : Int)) k := by
  have hs := (h.mem_of_find hx).2.1
  obtain ⟨hj, hw⟩ := h.walk_to_ext hd.1 hs
  rw [h.ext_of_find hx] at hw
  refine ⟨hw, ?_⟩
  intro k' hw'
  obtain ⟨j', hj', hwi⟩ := h.walk_to_int hw' hx
  rw [h.find_ext hj] at hj'
  cases hj'
  exact hd.2 k' hwi

/-- C14: for `x` present in the graph and every `maxDepth` (in particular every
`maxDepth ≥ 0`), the sequence returned by `bfs(x, maxDepth)` starts with `x` and lists nodes
in non-decreasing order of their shortest-path distance from `x`: whenever `a` precedes `b`,
`dist(x, a) ≤ dist(x, b)`. -/
theorem C14_bfs_discovery_order (content : List Char) (x maxDepth : Int)
    (hx : x ∈ endpoints (parsedEdges (getlines content))) :
    ∃ r, (load content).bfs x maxDepth = some r ∧ r.head? = some x ∧
      r.Pairwise (fun a b => ∃ da db : Nat,
        IsDist (fun u v => (u, v) ∈ parsedEdges (getlines content)) x a da ∧
        IsDist (fun u v => (u, v) ∈ parsedEdges (getlines content)) x b db ∧ da ≤ db) := by
  have h := load_spec content
  obtain ⟨start, hs, hf, _⟩ := h.find_of_mem hx
  obtain ⟨Q, hrun, hnd, _, hA⟩ := h.bfs_run hf maxDepth
  refine ⟨_, hrun, ?_, ?_⟩
  · cases Q with
    | nil => have := hA.start0; simp at this
    | cons p Q' =>
      have := hA.start0
      simp only [List.getElem?_cons_zero, Option.some.injEq] at this
      subst this
      simp [h.ext_of_find hf]
  · rw [List.pairwise_map]
    refine List.Pairwise.imp_of_mem ?_ hA.sorted
    intro a b ha hb hab
    obtain ⟨da, ea, hda⟩ := hA.depth_is_dist hnd ha
    obtain ⟨db, eb, hdb⟩ := hA.depth_is_dist hnd hb
    exact ⟨da, db, h.dist_to_ext hf hda, h.dist_to_ext hf hdb, by omega⟩

/-- Witness for C14 on the input `1 2 / 2 3 / 1 3 / 3 4`, from external id `1` with
`maxDepth = 2`. -/
theorem C14_bfs_discovery_order_witness :
    ∃ r, (load ("1 2\n2 3\n1 3\n3 4\n").toList).bfs 1 2 = some r ∧ r.head? = some 1 ∧
      r.Pairwise (fun a b => ∃ da db : Nat,
        IsDist (fun u v => (u, v) ∈ parsedEdges (getlines ("1 2\n2 3\n1 3\n3 4\n").toList))
          1 a da ∧
        IsDist (fun u v => (u, v) ∈ parsedEdges (getlines ("1 2\n2 3\n1 3\n3 4\n").toList))
          1 b db ∧ da ≤ db) :=
  C14_bfs_discovery_order ("1 2\n2 3\n1 3\n3 4\n").toList 1 2 (by decide)

/-- C18: for every start id and every `maxDepth`, `bfs` terminates: its main loop has
exited after at most `getNumNodes()` iterations, so any iteration budget of at least
`getNumNodes()` yields the same returned sequence. -/
theorem C18_bfs_terminates (content : List Char) (x maxDepth : Int) :
    ∃ r, (load content).bfsFuel (load content).num_nodes x maxDepth = some r ∧
      ∀ fuel, (load content).num_nodes ≤ fuel →
        (load content).bfsFuel fuel x maxDepth = some r := by
  have h := load_spec content
  cases hf : mapFind (load content).id_map x with
  | none => exact ⟨[], bfs_of_none hf _ _, fun fuel _ => bfs_of_none hf fuel _⟩
  | some start =>
    obtain ⟨Q, hrun, _⟩ := h.bfs_run hf maxDepth
    exact ⟨_, hrun, fun fuel hle => bfsFuel_mono _ _ fuel _ _ _ hle hrun⟩

/-- Witness for C18 on a graph with a cycle and a self-loop, with a large depth bound and
a budget above the node count. -/
theorem C18_bfs_terminates_witness :
    ∃ r, (load ("1 2\n2 1\n2 2\n").toList).bfsFuel
        (load ("1 2\n2 1\n2 2\n").toList).num_nodes 1 1000000 = some r ∧
      (load ("1 2\n2 1\n2 2\n").toList).bfsFuel 5 1 1000000 = some r :=
  (C18_bfs_terminates ("1 2\n2 1\n2 2\n").toList 1 1000000).imp
    (fun _ hr => ⟨hr.1, hr.2 5 (by decide)⟩)

/-! ## Array bounds in `bfs` -/

theorem Rep.visitAllChecked {es g} (hg : LoadSpec es g) (d : Int) (is : List Nat)
    (hi : ∀ i, i ∈ is → i < g.num_edges) {s Q} (h : Rep g s Q) :
    bfsVisitAllChecked g d is s = some (is.foldl (bfsVisit g d) s) := by
  induction is generalizing s Q with
  | nil => rfl
  | cons i is ih =>
    have hiE : i < g.num_edges := hi i (List.mem_cons_self _ _)
    have hv : g.col_indices.getD i 0 < g.num_nodes := by
      apply hg.col_lt
      have hlt : i < g.col_indices.length := by rw [hg.col_length]; exact hiE
      rw [List.getD_eq_getElem?_getD, List.getElem?_eq_getElem hlt]
      exact List.getElem_mem _
    have hb : visitInBounds g s i = true := by
      unfold visitInBounds
      simp only [hiE, hv, decide_True, Bool.true_and, Bool.or_eq_true, decide_eq_true_eq]
      by_cases hvis : s.visited.getD (g.col_indices.getD i 0) false = true
      · exact Or.inl hvis
      · exact Or.inr (h.room hv (fun hm => hvis ((h.vis _ hv).mpr hm)))
    rw [bfsVisitAllChecked, if_pos hb, List.foldl_cons]
    exact ih (fun j hj => hi j (List.mem_cons_of_mem _ hj)) (h.visit d i hv)

theorem Rep.stepChecked {es g} (hg : LoadSpec es g) (maxDepth : Int) {s Q} (h : Rep g s Q)
    (hlt : s.head < s.tail) : bfsStepChecked g maxDepth s = some (bfsStep g maxDepth s) := by
  have hent := h.head_entry hlt
  have hu : s.queue_nodes.getD s.head 0 < g.num_nodes := by
    apply h.bound
    exact List.mem_map_of_mem Prod.fst (List.getElem?_mem hent)
  have hhead : s.head < g.num_nodes := lt_of_lt_of_le hlt h.tail_le
  have h1 : Rep g { s with head := s.head + 1 } Q :=
    ⟨h.qn_len, h.qd_len, h.vis_len, h.tail_eq, h.qn_eq, h.qd_eq, h.nodup, h.bound, h.vis, h.ext⟩
  unfold bfsStepChecked bfsStep
  simp only
  rw [if_pos hhead]
  by_cases hd : s.queue_depths.getD s.head 0 ≥ maxDepth
  · rw [if_pos hd, if_pos hd]
  · rw [if_neg hd, if_neg hd, if_pos (by omega)]
    apply Rep.visitAllChecked hg _ _ _ h1
    intro i hi
    rw [List.mem_range'_1] at hi
    have := hg.slice_bound hu
    rw [hg.col_length] at this
    omega

theorem Rep.loopChecked {es g} (hg : LoadSpec es g) (maxDepth : Int) (fuel : Nat) {s Q}
    (h : Rep g s Q) : bfsLoopChecked g maxDepth fuel s = bfsLoop g maxDepth fuel s := by
  induction fuel generalizing s Q with
  | zero => rfl
  | succ fuel ih =>
    by_cases hlt : s.head < s.tail
    · simp only [bfsLoopChecked, bfsLoop, hlt, if_true, h.stepChecked hg maxDepth hlt]
      exact ih (h.rep_step hg maxDepth hlt).1
    · simp only [bfsLoopChecked, bfsLoop, hlt, if_false]

/-- C17: for a resolved start id and every `maxDepth`, all array accesses made by `bfs` stay
in bounds: the run in which every access is checked (queue writes at `tail < N`, `visited[v]`
with `v < N`, `col_indices[i]` with `i < getNumEdges()`, queue reads at `head < N`,
`row_ptr` reads below `N + 1`) finishes with the same result as `bfs`, and the number of
entries enqueued is at most `N = getNumNodes()`. -/
theorem C17_bfs_in_bounds (content : List Char) (x maxDepth : Int)
    (hx : x ∈ endpoints (parsedEdges (getlines content))) :
    ∃ r, (load content).bfsChecked x maxDepth = some r ∧
      (load content).bfs x maxDepth = some r ∧
      (r.length : Int) ≤ (load content).getNumNodes := by
  have h := load_spec content
  obtain ⟨start, hs, hf, _⟩ := h.find_of_mem hx
  obtain ⟨Q, hrun, hnd, hb, _⟩ := h.bfs_run hf maxDepth
  refine ⟨_, ?_, hrun, ?_⟩
  · rw [← hrun]
    have hne : ¬ ((start : Int) = -1) := by omega
    have hok : 0 < (load content).num_nodes ∧ (0 : Int) ≤ (start : Int) ∧
        start < (load content).num_nodes := ⟨by omega, Int.ofNat_nonneg _, hs⟩
    unfold SparseGraph.bfsChecked SparseGraph.bfs SparseGraph.bfsFuel
    simp only [getInternalId_of_find hf, hne, if_false, Int.toNat_ofNat, hok, and_self, if_true]
    rw [Rep.loopChecked h maxDepth _ (Rep.rep_init h hf)]
  · have := length_le_of_nodup_bound _ _ hnd hb
    simp only [List.length_map] at this ⊢
    simp only [SparseGraph.getNumNodes]
    exact_mod_cast this

/-- Witness for C17 on a graph with a cycle and a repeated edge, from external id `1`. -/
theorem C17_bfs_in_bounds_witness :
    ∃ r, (load ("1 2\n2 1\n1 2\n2 3\n").toList).bfsChecked 1 5 = some r ∧
      (load ("1 2\n2 1\n1 2\n2 3\n").toList).bfs 1 5 = some r ∧
      (r.length : Int) ≤ (load ("1 2\n2 1\n1 2\n2 3\n").toList).getNumNodes :=
  C17_bfs_in_bounds ("1 2\n2 1\n1 2\n2 3\n").toList 1 5 (by decide)

/-! ## Raising the depth bound -/

theorem absExpand_ext (g : SparseGraph) (maxDepth : Int) (Q : List (Nat × Int)) (h : Nat) :
    ∃ t, absExpand g maxDepth Q h = Q ++ t := by
  unfold absExpand
  cases hent : Q[h]? with
  | none => exact ⟨[], by simp⟩
  | some p =>
    obtain ⟨u, d⟩ := p
    simp only
    by_cases hd : d ≥ maxDepth
    · rw [if_pos hd]; exact ⟨[], by simp⟩
    · rw [if_neg hd]
      obtain ⟨Nw, e, _, _⟩ := absFold_spec d (g.adj u) Q
      exact ⟨Nw, e⟩

theorem absLoop_ext (g : SparseGraph) (maxDepth : Int) (fuel : Nat) (Q : List (Nat × Int))
    (h : Nat) : ∃ t, absLoop g maxDepth fuel Q h = Q ++ t := by
  induction fuel generalizing Q h with
  | zero => exact ⟨[], by simp [absLoop]⟩
  | succ fuel ih =>
    unfold absLoop
    by_cases hlt : h < Q.length
    · rw [if_pos hlt]
      obtain ⟨t1, e1⟩ := absExpand_ext g maxDepth Q h
      obtain ⟨t2, e2⟩ := ih (absExpand g maxDepth Q h) (h + 1)
      exact ⟨t1 ++ t2, by rw [e2, e1, List.append_assoc]⟩
    · rw [if_neg hlt]; exact ⟨[], by simp⟩

theorem Rep.loop_abs {es g} (hg : LoadSpec es g) (maxDepth : Int) (fuel : Nat) {s Q}
    (h : Rep g s Q) (hfuel : g.num_nodes - s.head ≤ fuel) :
    ∃ s', bfsLoop g maxDepth fuel s = some s' ∧ Rep g s' (absLoop g maxDepth fuel Q s.head) := by
  induction fuel generalizing s Q with
  | zero =>
    have := h.tail_le
    have hnot : ¬ s.head < s.tail := by omega
    exact ⟨s, by simp [bfsLoop, hnot], by simpa [absLoop] using h⟩
  | succ fuel ih =>
    by_cases hlt : s.head < s.tail
    · obtain ⟨hR, hh⟩ := h.rep_step hg maxDepth hlt
      obtain ⟨s', h1, h2⟩ := ih hR (by rw [hh]; omega)
      refine ⟨s', by simp [bfsLoop, hlt, h1], ?_⟩
      have hlt' : s.head < Q.length := h.tail_eq ▸ hlt
      rw [hh] at h2
      simpa [absLoop, hlt'] using h2
    · have hlt' : ¬ s.head < Q.length := h.tail_eq ▸ hlt
      exact ⟨s, by simp [bfsLoop, hlt], by simpa [absLoop, hlt'] using h⟩

theorem absLoop_extend (g : SparseGraph) (start : Nat) (maxDepth : Int) (fuel : Nat)
    (Q1 Q2 : List (Nat × Int)) (h : Nat) (hA : AInv g start maxDepth Q1 h)
    (hp : ∃ t, Q2 = Q1 ++ t) (hc : Q1 = Q2 ∨ ∀ q, q ∈ Q1.drop h → maxDepth ≤ q.2) :
    ∃ t, absLoop g (maxDepth + 1) fuel Q2 h = absLoop g maxDepth fuel Q1 h ++ t := by
  induction fuel generalizing Q1 Q2 h with
  | zero =>
    obtain ⟨t, e⟩ := hp
    exact ⟨t, by simp [absLoop, e]⟩
  | succ fuel ih =>
    obtain ⟨t, e⟩ := hp
    by_cases hlt : h < Q1.length
    · have hlt2 : h < Q2.length := by rw [e, List.length_append]; omega
      obtain ⟨⟨u, d⟩, hent⟩ : ∃ x, Q1[h]? = some x := ⟨Q1[h], List.getElem?_eq_getElem hlt⟩
      have hent2 : Q2[h]? = some (u, d) := by
        rw [e, List.getElem?_append_left hlt]; exact hent
      have hstep := hA.ainv_step hlt
      unfold absLoop
      rw [if_pos hlt, if_pos hlt2]
      by_cases hd : d < maxDepth
      · have hQ : Q1 = Q2 := by
          rcases hc with hc | hc
          · exact hc
          · have := hc (u, d) (by rw [drop_eq_cons Q1 h (u, d) hent]; exact List.mem_cons_self _ _)
            simp only at this
            omega
        subst hQ
        have e1 : absExpand g (maxDepth + 1) Q1 h = absExpand g maxDepth Q1 h := by
          unfold absExpand
          rw [hent]
          simp only
          rw [if_neg (by omega), if_neg (by omega)]
        rw [e1]
        exact ih _ _ _ hstep ⟨[], by simp⟩ (Or.inl rfl)
      · have e1 : absExpand g maxDepth Q1 h = Q1 := by
          unfold absExpand
          rw [hent]
          simp only
          rw [if_pos (by omega)]
        rw [e1] at hstep ⊢
        obtain ⟨t2, e2⟩ := absExpand_ext g (maxDepth + 1) Q2 h
        refine ih Q1 _ (h + 1) hstep ⟨t ++ t2, by rw [e2, e, List.append_assoc]⟩ (Or.inr ?_)
        intro q hq
        have hs : (Q1.drop h).Pairwise (fun a b => a.2 ≤ b.2) :=
          hA.sorted.sublist (List.drop_sublist _ _)
        rw [drop_eq_cons Q1 h (u, d) hent, List.pairwise_cons] at hs
        have := hs.1 q hq
        simp only at this
        omega
    · obtain ⟨t2, e2⟩ := absLoop_ext g (maxDepth + 1) (fuel + 1) Q2 h
      refine ⟨t ++ t2, ?_⟩
      rw [e2, e]
      simp [absLoop, hlt]

theorem LoadSpec.bfs_abs {es g} (hg : LoadSpec es g) {x : Int} {start : Nat}
    (hx : mapFind g.id_map x = some start) (maxDepth : Int) :
    g.bfs x maxDepth = some ((absLoop g maxDepth g.num_nodes [(start, 0)] 0).map
      (fun p => g.getExternalId (p.1 : Int))) := by
  have hne : ¬ ((start : Int) = -1) := by omega
  obtain ⟨s', hrun, hR⟩ := Rep.loop_abs hg maxDepth g.num_nodes (Rep.rep_init hg hx) (by simp)
  unfold SparseGraph.bfs SparseGraph.bfsFuel
  simp only [getInternalId_of_find hx, hne, if_false, Int.toNat_ofNat]
  rw [hrun]
  simp [hR.ext]

/-- C19: for `x` present in the graph and every depth bound `d` (in particular every
`d ≥ 0`), the sequence `bfs(x, d)` is a prefix of `bfs(x, d + 1)`: raising the bound only
appends newly discovered nodes and never reorders or removes earlier ones. -/
theorem C19_bfs_depth_prefix (content : List Char) (x d : Int)
    (hx : x ∈ endpoints (parsedEdges (getlines content))) :
    ∃ r t, (load content).bfs x d = some r ∧ (load content).bfs x (d + 1) = some (r ++ t) := by
  have h := load_spec content
  obtain ⟨start, _, hf, _⟩ := h.find_of_mem hx
  obtain ⟨t, e⟩ := absLoop_extend (load content) start d (load content).num_nodes
    [(start, 0)] [(start, 0)] 0 (AInv.ainv_init _ start d) ⟨[], by simp⟩ (Or.inl rfl)
  refine ⟨_, t.map (fun p => (load content).getExternalId (p.1 : Int)), h.bfs_abs hf d, ?_⟩
  rw [h.bfs_abs hf (d + 1), e, List.map_append]

/-- Witness for C19 on the input `1 2 / 2 3 / 1 3 / 3 4`, from external id `1` with
`d = 1`. -/
theorem C19_bfs_depth_prefix_witness :
    ∃ r t, (load ("1 2\n2 3\n1 3\n3 4\n").toList).bfs 1 1 = some r ∧
      (load ("1 2\n2 3\n1 3\n3 4\n").toList).bfs 1 (1 + 1) = some (r ++ t) :=
  C19_bfs_depth_prefix ("1 2\n2 3\n1 3\n3 4\n").toList 1 1 (by decide)

/-! ## The text of a line and the extraction of two integers -/

theorem extractInt_minus (cs body : List Char) (h : cs.dropWhile isspace = '-' :: body) :
    extractInt cs = extractBody true body := by
  unfold extractInt extractBody
  rw [h]
  rfl

theorem extractInt_plus (cs body : List Char) (h : cs.dropWhile isspace = '+' :: body) :
    extractInt cs = extractBody false body := by
  unfold extractInt extractBody
  rw [h]
  rfl

theorem extractInt_other (cs : List Char) (h1 : ∀ t, cs.dropWhile isspace ≠ '-' :: t)
    (h2 : ∀ t, cs.dropWhile isspace ≠ '+' :: t) :
    extractInt cs = extractBody false (cs.dropWhile isspace) := by
  unfold extractInt extractBody
  revert h1 h2
  generalize cs.dropWhile isspace = cs1
  intro h1 h2
  have hm : (match cs1 with
      | '-' :: t => (true, t)
      | '+' :: t => (false, t)
      | _ => (false, cs1)) = (false, cs1) := by
    split
    all_goals first | rfl | (exfalso; simp_all)
  simp only [hm]

theorem digitsVal_eq (ds : List Char) (acc : Nat) :
    digitsVal ds acc = acc * 10 ^ ds.length + decimalValue ds := by
  induction ds generalizing acc with
  | nil => simp [digitsVal, decimalValue]
  | cons c cs ih =>
    rw [digitsVal, ih]
    simp only [decimalValue, List.reverse_cons, List.map_append, List.map_cons, List.map_nil,
      Nat.ofDigits_append, Nat.ofDigits_singleton, List.length_map, List.length_reverse,
      List.length_cons]
    ring

theorem digitsVal_zero (ds : List Char) : digitsVal ds 0 = decimalValue ds := by
  rw [digitsVal_eq]; simp

theorem isdigit_not_space {c : Char} (h : isdigit c = true) : isspace c = false := by
  unfold isdigit at h
  unfold isspace
  simp only [Bool.and_eq_true, decide_eq_true_eq] at h
  simp only [Bool.or_eq_false_iff, beq_eq_false_iff_ne, ne_eq, Bool.and_eq_false_imp,
    decide_eq_true_eq, decide_eq_false_iff_not, not_le]
  omega

theorem isdigit_ne_minus {c : Char} (h : isdigit c = true) : c ≠ '-' := by
  intro e; subst e; revert h; decide

theorem isdigit_ne_plus {c : Char} (h : isdigit c = true) : c ≠ '+' := by
  intro e; subst e; revert h; decide

theorem dropWhile_head_false {α : Type} (p : α → Bool) (l : List α) (c : α) (t : List α)
    (h : l.dropWhile p = c :: t) : p c = false := by
  induction l with
  | nil => simp at h
  | cons a l ih =>
    by_cases ha : p a = true
    · rw [List.dropWhile_cons_of_pos ha] at h
      exact ih h
    · rw [List.dropWhile_cons_of_neg ha] at h
      cases h
      simpa using ha

theorem dropWhile_of_head_false {α : Type} (p : α → Bool) (l : List α)
    (h : ∀ c t, l = c :: t → p c = false) : l.dropWhile p = l := by
  cases l with
  | nil => rfl
  | cons a l => rw [List.dropWhile_cons_of_neg (by simp [h a l rfl])]

theorem takeWhile_of_head_false {α : Type} (p : α → Bool) (l : List α)
    (h : ∀ c t, l = c :: t → p c = false) : l.takeWhile p = [] := by
  cases l with
  | nil => rfl
  | cons a l => rw [List.takeWhile_cons_of_neg (by simp [h a l rfl])]

theorem takeWhile_run {α : Type} (p : α → Bool) (ds rest : List α)
    (hds : ∀ c, c ∈ ds → p c = true) (hrest : ∀ c t, rest = c :: t → p c = false) :
    (ds ++ rest).takeWhile p = ds ∧ (ds ++ rest).dropWhile p = rest := by
  constructor
  · rw [List.takeWhile_append_of_pos hds, takeWhile_of_head_false p rest hrest,
      List.append_nil]
  · rw [List.dropWhile_append_of_pos hds, dropWhile_of_head_false p rest hrest]

theorem dropWhile_space_run (w cs : List Char) (hw : ∀ c, c ∈ w → isspace c = true)
    (hcs : ∀ c t, cs = c :: t → isspace c = false) : (w ++ cs).dropWhile isspace = cs :=
  (takeWhile_run isspace w cs hw hcs).2

/-- The value and range test of `extractBody`, in terms of the value of the digit run. -/
theorem extractBody_run (neg : Bool) (ds rest : List Char) (hne : ds ≠ [])
    (hds : ∀ c, c ∈ ds → isdigit c = true) (hrest : ∀ c t, rest = c :: t → isdigit c = false) :
    extractBody neg (ds ++ rest) =
      if INT_MIN ≤ (if neg then -(decimalValue ds : Int) else (decimalValue ds : Int)) ∧
          (if neg then -(decimalValue ds : Int) else (decimalValue ds : Int)) ≤ INT_MAX
      then some ((if neg then -(decimalValue ds : Int) else (decimalValue ds : Int)), rest)
      else none := by
  obtain ⟨h1, h2⟩ := takeWhile_run isdigit ds rest hds hrest
  unfold extractBody
  rw [h1, h2, digitsVal_zero]
  have hemp : ds.isEmpty = false := by
    cases ds with
    | nil => exact absurd rfl hne
    | cons a l => rfl
  rw [hemp]
  simp only [Bool.false_eq_true, if_false]
  by_cases hr : INT_MIN ≤ (if neg then -(decimalValue ds : Int) else (decimalValue ds : Int)) ∧
      (if neg then -(decimalValue ds : Int) else (decimalValue ds : Int)) ≤ INT_MAX
  · rw [if_pos hr, if_neg (by omega)]
  · rw [if_neg hr, if_pos (by omega)]

theorem extractBody_some (neg : Bool) (body rest : List Char) (n : Int)
    (h : extractBody neg body = some (n, rest)) :
    ∃ ds, body = ds ++ rest ∧ ds ≠ [] ∧ (∀ c, c ∈ ds → isdigit c = true) ∧
      (∀ c t, rest = c :: t → isdigit c = false) ∧
      n = (if neg then -(decimalValue ds : Int) else (decimalValue ds : Int)) ∧
      INT_MIN ≤ n ∧ n ≤ INT_MAX := by
  unfold extractBody at h
  by_cases hemp : (body.takeWhile isdigit).isEmpty = true
  · rw [if_pos hemp] at h; cases h
  · rw [if_neg hemp] at h
    have hshape : body = body.takeWhile isdigit ++ body.dropWhile isdigit :=
      (List.takeWhile_append_dropWhile isdigit body).symm
    have hne : body.takeWhile isdigit ≠ [] := by
      intro e; rw [e] at hemp; exact hemp rfl
    have hall : ∀ c, c ∈ body.takeWhile isdigit → isdigit c = true :=
      fun c hc => List.mem_takeWhile_imp hc
    have hnext : ∀ c t, body.dropWhile isdigit = c :: t → isdigit c = false :=
      fun c t e => dropWhile_head_false isdigit body c t e
    rw [digitsVal_zero] at h
    cases neg
    · simp only [Bool.false_eq_true, if_false] at h ⊢
      split at h
      · cases h
      · rename_i hr
        simp only [Option.some.injEq, Prod.mk.injEq] at h
        obtain ⟨hn, hrest⟩ := h
        subst hrest
        exact ⟨_, hshape, hne, hall, hnext, hn.symm, by omega, by omega⟩
    · simp only [if_true] at h ⊢
      split at h
      · cases h
      · rename_i hr
        simp only [Option.some.injEq, Prod.mk.injEq] at h
        obtain ⟨hn, hrest⟩ := h
        subst hrest
        exact ⟨_, hshape, hne, hall, hnext, hn.symm, by omega, by omega⟩

theorem isspace_not_digit {c : Char} (h : isspace c = true) : isdigit c = false := by
  cases hd : isdigit c with
  | false => rfl
  | true => rw [isdigit_not_space hd] at h; cases h

theorem signedDigits_head {t sign ds : List Char} (h : SignedDigits t sign ds) :
    ∃ c cs, t = c :: cs ∧ isspace c = false ∧ c ≠ '#' ∧
      (sign = [] → isdigit c = true) ∧ (sign ≠ [] → c = '+' ∨ c = '-') := by
  obtain ⟨rfl, hsign, hne, hds⟩ := h
  cases ds with
  | nil => exact absurd rfl hne
  | cons d ds' =>
    have hd := hds d (List.mem_cons_self _ _)
    rcases hsign with rfl | rfl | rfl
    · refine ⟨d, ds', rfl, isdigit_not_space hd, ?_, fun _ => hd, fun h => absurd rfl h⟩
      intro e; subst e; revert hd; decide
    · exact ⟨'+', d :: ds', rfl, by decide, by decide, (fun h => by cases h),
        (fun _ => Or.inl rfl)⟩
    · exact ⟨'-', d :: ds', rfl, by decide, by decide, (fun h => by cases h),
        (fun _ => Or.inr rfl)⟩

theorem extractInt_literal (w t rest sign ds : List Char)
    (hw : ∀ c, c ∈ w → isspace c = true) (ht : SignedDigits t sign ds)
    (hrest : ∀ c cs, rest = c :: cs → isdigit c = false) :
    extractInt (w ++ t ++ rest) =
      if INT_MIN ≤ signedValue sign ds ∧ signedValue sign ds ≤ INT_MAX
      then some (signedValue sign ds, rest) else none := by
  obtain ⟨rfl, hsign, hne, hds⟩ := ht
  obtain ⟨d, ds', rfl⟩ : ∃ d ds', ds = d :: ds' := by
    cases ds with
    | nil => exact absurd rfl hne
    | cons d ds' => exact ⟨d, ds', rfl⟩
  have hd : isdigit d = true := hds d (List.mem_cons_self _ _)
  rcases hsign with rfl | rfl | rfl
  · have e : w ++ ([] ++ d :: ds') ++ rest = w ++ (d :: ds' ++ rest) := by
      simp only [List.nil_append, List.append_assoc]
    have hdrop : (w ++ (d :: ds' ++ rest)).dropWhile isspace = d :: ds' ++ rest :=
      dropWhile_space_run w _ hw (by intro c t e; cases e; exact isdigit_not_space hd)
    have n1 : ∀ t, (w ++ (d :: ds' ++ rest)).dropWhile isspace ≠ '-' :: t := by
      intro t e; rw [hdrop] at e; cases e; exact isdigit_ne_minus hd rfl
    have n2 : ∀ t, (w ++ (d :: ds' ++ rest)).dropWhile isspace ≠ '+' :: t := by
      intro t e; rw [hdrop] at e; cases e; exact isdigit_ne_plus hd rfl
    rw [e, extractInt_other _ n1 n2, hdrop, extractBody_run false (d :: ds') rest hne hds hrest]
    simp [signedValue]
  · have e : w ++ (['+'] ++ d :: ds') ++ rest = w ++ ('+' :: (d :: ds' ++ rest)) := by
      simp only [List.singleton_append, List.cons_append, List.append_assoc, List.nil_append]
    have hdrop : (w ++ ('+' :: (d :: ds' ++ rest))).dropWhile isspace =
        '+' :: (d :: ds' ++ rest) :=
      dropWhile_space_run w _ hw (by intro c t e; cases e; decide)
    rw [e, extractInt_plus _ _ hdrop, extractBody_run false (d :: ds') rest hne hds hrest]
    simp [signedValue]
  · have e : w ++ (['-'] ++ d :: ds') ++ rest = w ++ ('-' :: (d :: ds' ++ rest)) := by
      simp only [List.singleton_append, List.cons_append, List.append_assoc, List.nil_append]
    have hdrop : (w ++ ('-' :: (d :: ds' ++ rest))).dropWhile isspace =
        '-' :: (d :: ds' ++ rest) :=
      dropWhile_space_run w _ hw (by intro c t e; cases e; decide)
    rw [e, extractInt_minus _ _ hdrop, extractBody_run true (d :: ds') rest hne hds hrest]
    simp [signedValue]

theorem extractInt_some (cs rest : List Char) (n : Int) (h : extractInt cs = some (n, rest)) :
    ∃ w t, cs = w ++ t ++ rest ∧ (∀ c, c ∈ w → isspace c = true) ∧ IntLiteral t n ∧
      (∀ c cs', rest = c :: cs' → isdigit c = false) := by
  have hsplit : cs = cs.takeWhile isspace ++ cs.dropWhile isspace :=
    (List.takeWhile_append_dropWhile isspace cs).symm
  have hw : ∀ c, c ∈ cs.takeWhile isspace → isspace c = true :=
    fun c hc => List.mem_takeWhile_imp hc
  by_cases hm : ∃ body, cs.dropWhile isspace = '-' :: body
  · obtain ⟨body, hb⟩ := hm
    rw [extractInt_minus cs body hb] at h
    obtain ⟨ds, e, hne, hds, hrest, hn, hlo, hhi⟩ := extractBody_some true body rest n h
    refine ⟨cs.takeWhile isspace, '-' :: ds, ?_, hw,
      ⟨['-'], ds, ⟨rfl, Or.inr (Or.inr rfl), hne, hds⟩, by simpa [signedValue] using hn,
        hlo, hhi⟩, hrest⟩
    rw [List.append_assoc, List.cons_append, ← e, ← hb]
    exact hsplit
  · by_cases hp : ∃ body, cs.dropWhile isspace = '+' :: body
    · obtain ⟨body, hb⟩ := hp
      rw [extractInt_plus cs body hb] at h
      obtain ⟨ds, e, hne, hds, hrest, hn, hlo, hhi⟩ := extractBody_some false body rest n h
      refine ⟨cs.takeWhile isspace, '+' :: ds, ?_, hw,
        ⟨['+'], ds, ⟨rfl, Or.inr (Or.inl rfl), hne, hds⟩, by simpa [signedValue] using hn,
          hlo, hhi⟩, hrest⟩
      rw [List.append_assoc, List.cons_append, ← e, ← hb]
      exact hsplit
    · rw [extractInt_other cs (fun t e => hm ⟨t, e⟩) (fun t e => hp ⟨t, e⟩)] at h
      obtain ⟨ds, e, hne, hds, hrest, hn, hlo, hhi⟩ := extractBody_some false _ rest n h
      refine ⟨cs.takeWhile isspace, ds, ?_, hw,
        ⟨[], ds, ⟨rfl, Or.inl rfl, hne, hds⟩, by simpa [signedValue] using hn, hlo, hhi⟩,
        hrest⟩
      rw [List.append_assoc, ← e]
      exact hsplit

theorem extractInt_nonnumeric (w : List Char) (c : Char) (rest : List Char)
    (hw : ∀ a, a ∈ w → isspace a = true) (h1 : isspace c = false) (h2 : isdigit c = false)
    (h3 : c ≠ '+') (h4 : c ≠ '-') : extractInt (w ++ c :: rest) = none := by
  have hdrop : (w ++ c :: rest).dropWhile isspace = c :: rest :=
    dropWhile_space_run w _ hw (by intro a t e; cases e; exact h1)
  rw [extractInt_other _ (by rw [hdrop]; intro t e; cases e; exact h4 rfl)
    (by rw [hdrop]; intro t e; cases e; exact h3 rfl), hdrop]
  unfold extractBody
  rw [List.takeWhile_cons_of_neg (by simp [h2])]
  rfl

theorem extractInt_blank (w : List Char) (hw : ∀ a, a ∈ w → isspace a = true) :
    extractInt w = none := by
  have hdrop : w.dropWhile isspace = [] := by
    rw [List.dropWhile_eq_nil_iff]; exact hw
  rw [extractInt_other _ (by rw [hdrop]; intro t e; cases e)
    (by rw [hdrop]; intro t e; cases e), hdrop]
  rfl

theorem parsePair_of_begins {line : List Char} {u v : Int} (h : BeginsWithTwoInts line u v) :
    parsePair line = some (u, v) := by
  obtain ⟨w1, t1, w2, t2, rest, rfl, hw1, hw2, ⟨s1, d1, ht1, hu, hu1, hu2⟩,
    ⟨s2, d2, ht2, hv, hv1, hv2⟩, hsep, hrest⟩ := h
  obtain ⟨c2, cs2, hc2, _, _, hdig2, hsgn2⟩ := signedDigits_head ht2
  have hmid : ∀ c cs, w2 ++ t2 ++ rest = c :: cs → isdigit c = false := by
    intro c cs e
    cases w2 with
    | nil =>
      obtain ⟨c', cs', e', hc'⟩ := hsep rfl
      rw [e'] at e
      cases e
      rcases hc' with rfl | rfl <;> decide
    | cons a w2' =>
      cases e
      exact isspace_not_digit (hw2 _ (List.mem_cons_self _ _))
  have e1 : extractInt (w1 ++ t1 ++ w2 ++ t2 ++ rest) = some (u, w2 ++ t2 ++ rest) := by
    have : w1 ++ t1 ++ w2 ++ t2 ++ rest = w1 ++ t1 ++ (w2 ++ t2 ++ rest) := by
      simp only [List.append_assoc]
    rw [this, extractInt_literal w1 t1 _ s1 d1 hw1 ht1 hmid, ← hu, if_pos ⟨hu1, hu2⟩]
  have e2 : extractInt (w2 ++ t2 ++ rest) = some (v, rest) := by
    rw [extractInt_literal w2 t2 _ s2 d2 hw2 ht2 hrest, ← hv, if_pos ⟨hv1, hv2⟩]
  unfold parsePair
  rw [e1]
  simp only
  rw [e2]

theorem begins_of_parsePair {line : List Char} {u v : Int} (h : parsePair line = some (u, v)) :
    BeginsWithTwoInts line u v := by
  unfold parsePair at h
  cases h1 : extractInt line with
  | none => rw [h1] at h; cases h
  | some p1 =>
    obtain ⟨u', r1⟩ := p1
    rw [h1] at h
    simp only at h
    cases h2 : extractInt r1 with
    | none => rw [h2] at h; cases h
    | some p2 =>
      obtain ⟨v', r2⟩ := p2
      rw [h2] at h
      simp only [Option.some.injEq, Prod.mk.injEq] at h
      obtain ⟨rfl, rfl⟩ := h
      obtain ⟨w1, t1, e1, hw1, hl1, hn1⟩ := extractInt_some line r1 u' h1
      obtain ⟨w2, t2, e2, hw2, hl2, hn2⟩ := extractInt_some r1 r2 v' h2
      refine ⟨w1, t1, w2, t2, r2, ?_, hw1, hw2, hl1, hl2, ?_, hn2⟩
      · rw [e1, e2]; simp only [List.append_assoc]
      · intro hnil
        subst hnil
        obtain ⟨s2, d2, ht2, _, _, _⟩ := hl2
        obtain ⟨c, cs, hc, _, _, hdig, hsgn⟩ := signedDigits_head ht2
        refine ⟨c, cs, hc, ?_⟩
        by_cases hs : s2 = []
        · have := hn1 c (cs ++ r2) (by rw [e2, hc]; rfl)
          rw [hdig hs] at this
          cases this
        · exact hsgn hs

theorem parsePair_eq_some_iff (line : List Char) (u v : Int) :
    parsePair line = some (u, v) ↔ BeginsWithTwoInts line u v :=
  ⟨begins_of_parsePair, parsePair_of_begins⟩

theorem parseLine_of_begins {line : List Char} {u v : Int} (h : BeginsWithTwoInts line u v) :
    parseLine line = some (u, v) := by
  have hp := parsePair_of_begins h
  obtain ⟨w1, t1, w2, t2, rest, rfl, hw1, _, ⟨s1, d1, ht1, _⟩, _⟩ := h
  obtain ⟨c, cs, hc, _, hne, _, _⟩ := signedDigits_head ht1
  cases w1 with
  | nil =>
    rw [hc] at hp ⊢
    simp only [List.nil_append, List.cons_append] at hp ⊢
    simp only [parseLine, hne, if_false]
    exact hp
  | cons a w1' =>
    have ha : a ≠ '#' := by
      intro e
      have := hw1 a (List.mem_cons_self _ _)
      rw [e] at this
      revert this; decide
    simp only [List.cons_append] at hp ⊢
    simp only [parseLine, ha, if_false]
    exact hp

theorem parsePair_none_of_not_begins {line : List Char}
    (h : ∀ u v, ¬ BeginsWithTwoInts line u v) : parsePair line = none := by
  cases hp : parsePair line with
  | none => rfl
  | some p => exact absurd (begins_of_parsePair (u := p.1) (v := p.2) hp) (h p.1 p.2)

theorem parsePair_single_integer (w t w' sign ds : List Char)
    (hw : ∀ c, c ∈ w → isspace c = true) (ht : SignedDigits t sign ds)
    (hw' : ∀ c, c ∈ w' → isspace c = true) : parsePair (w ++ t ++ w') = none := by
  unfold parsePair
  rw [extractInt_literal w t w' sign ds hw ht
    (fun c cs e => isspace_not_digit (hw' c (e ▸ List.mem_cons_self _ _)))]
  by_cases hr : INT_MIN ≤ signedValue sign ds ∧ signedValue sign ds ≤ INT_MAX
  · rw [if_pos hr]
    simp only [extractInt_blank w' hw']
  · rw [if_neg hr]

theorem parsePair_first_nonnumeric (w : List Char) (c : Char) (rest : List Char)
    (hw : ∀ a, a ∈ w → isspace a = true) (h1 : isspace c = false) (h2 : isdigit c = false)
    (h3 : c ≠ '+') (h4 : c ≠ '-') : parsePair (w ++ c :: rest) = none := by
  unfold parsePair
  rw [extractInt_nonnumeric w c rest hw h1 h2 h3 h4]

theorem parsePair_second_nonnumeric (w1 t1 w2 : List Char) (c : Char) (rest sign ds : List Char)
    (hw1 : ∀ a, a ∈ w1 → isspace a = true) (ht : SignedDigits t1 sign ds)
    (hw2 : ∀ a, a ∈ w2 → isspace a = true) (h1 : isspace c = false) (h2 : isdigit c = false)
    (h3 : c ≠ '+') (h4 : c ≠ '-') : parsePair (w1 ++ t1 ++ w2 ++ c :: rest) = none := by
  have e : w1 ++ t1 ++ w2 ++ c :: rest = w1 ++ t1 ++ (w2 ++ c :: rest) := by
    simp only [List.append_assoc]
  have hmid : ∀ a cs, w2 ++ c :: rest = a :: cs → isdigit a = false := by
    intro a cs e'
    cases w2 with
    | nil => cases e'; exact h2
    | cons b w2' => cases e'; exact isspace_not_digit (hw2 _ (List.mem_cons_self _ _))
  unfold parsePair
  rw [e, extractInt_literal w1 t1 _ sign ds hw1 ht hmid]
  by_cases hr : INT_MIN ≤ signedValue sign ds ∧ signedValue sign ds ≤ INT_MAX
  · rw [if_pos hr]
    simp only [extractInt_nonnumeric w2 c rest hw2 h1 h2 h3 h4]
  · rw [if_neg hr]

theorem parsedEdges_insert (pre post : List (List Char)) (line : List Char) (e : Int × Int)
    (h : parseLine line = some e) :
    parsedEdges (pre ++ line :: post) = parsedEdges pre ++ e :: parsedEdges post := by
  simp [parsedEdges, List.filterMap_append, List.filterMap_cons, h]

theorem parsedEdges_remove (pre post : List (List Char)) :
    parsedEdges (pre ++ post) = parsedEdges pre ++ parsedEdges post := by
  simp [parsedEdges, List.filterMap_append]

theorem load_skip_of_parsePair (content content' : List Char) (pre post : List (List Char))
    (line : List Char) (h1 : getlines content = pre ++ line :: post)
    (h2 : getlines content' = pre ++ post) (h : parsePair line = none) :
    load content = load content' := by
  unfold load SparseGraph.loadFromFile
  simp only [h1, h2]
  exact loadLines_skip _ pre post line (parseLine_of_parsePair h)

/-- C8, as the code has it: a line that does not begin with two integers is skipped by
`loadFromFile`: the file loads to the same graph as the file without the line, so the line
adds no edge, assigns no internal id and adds no neighbour.  This covers a line holding a
single integer, a line whose first non-whitespace character is neither a digit nor a sign,
and a line on which the text after the first integer starts with a character that is neither
whitespace, digit nor sign, or reaches such a character after whitespace.  A line that does
begin with two integers `u` and `v` is read as the edge `(u, v)` whatever follows the second
integer: `getNumEdges()` grows by one, `u` and `v` have internal ids, and `v` gains one
occurrence in `getNeighbors(u)`. -/
theorem C8_line_skipped_unless_two_leading_integers (content content' : List Char)
    (pre post : List (List Char)) (line : List Char)
    (h1 : getlines content = pre ++ line :: post) (h2 : getlines content' = pre ++ post) :
    ((∀ u v, ¬ BeginsWithTwoInts line u v) → load content = load content') ∧
    (∀ w t w' sign ds, line = w ++ t ++ w' → (∀ c, c ∈ w → isspace c = true) →
      SignedDigits t sign ds → (∀ c, c ∈ w' → isspace c = true) →
      load content = load content') ∧
    (∀ w c rest, line = w ++ c :: rest → (∀ a, a ∈ w → isspace a = true) →
      isspace c = false → isdigit c = false → c ≠ '+' → c ≠ '-' →
      load content = load content') ∧
    (∀ w1 t1 w2 c rest sign ds, line = w1 ++ t1 ++ w2 ++ c :: rest →
      (∀ a, a ∈ w1 → isspace a = true) → SignedDigits t1 sign ds →
      (∀ a, a ∈ w2 → isspace a = true) →
      isspace c = false → isdigit c = false → c ≠ '+' → c ≠ '-' →
      load content = load content') ∧
    (∀ u v, BeginsWithTwoInts line u v →
      (load content).getNumEdges = (load content').getNumEdges + 1 ∧
      (load content).getInternalId u ≠ -1 ∧ (load content).getInternalId v ≠ -1 ∧
      ((load content).getNeighbors u).count v =
        ((load content').getNeighbors u).count v + 1) := by
  refine ⟨?_, ?_, ?_, ?_, ?_⟩
  · intro h
    exact load_skip_of_parsePair content content' pre post line h1 h2
      (parsePair_none_of_not_begins h)
  · intro w t w' sign ds e hw ht hw'
    exact load_skip_of_parsePair content content' pre post line h1 h2
      (e ▸ parsePair_single_integer w t w' sign ds hw ht hw')
  · intro w c rest e hw c1 c2 c3 c4
    exact load_skip_of_parsePair content content' pre post line h1 h2
      (e ▸ parsePair_first_nonnumeric w c rest hw c1 c2 c3 c4)
  · intro w1 t1 w2 c rest sign ds e hw1 ht hw2 c1 c2 c3 c4
    exact load_skip_of_parsePair content content' pre post line h1 h2
      (e ▸ parsePair_second_nonnumeric w1 t1 w2 c rest sign ds hw1 ht hw2 c1 c2 c3 c4)
  · intro u v hb
    have hs := load_spec content
    have hs' := load_spec content'
    rw [h1, parsedEdges_insert pre post line (u, v) (parseLine_of_begins hb)] at hs
    rw [h2, parsedEdges_remove] at hs'
    have hmem : (u, v) ∈ parsedEdges pre ++ (u, v) :: parsedEdges post :=
      List.mem_append_right _ (List.mem_cons_self _ _)
    obtain ⟨iu, _, hiu, _⟩ := hs.find_of_mem (mem_endpoints hmem).1
    obtain ⟨iv, _, hiv, _⟩ := hs.find_of_mem (mem_endpoints hmem).2
    refine ⟨?_, ?_, ?_, ?_⟩
    · simp only [SparseGraph.getNumEdges, hs.edges, hs'.edges, List.length_append,
        List.length_cons]
      push_cast
      ring
    · rw [getInternalId_of_find hiu]; omega
    · rw [getInternalId_of_find hiv]; omega
    · rw [hs.count_neighbors, hs'.count_neighbors, List.count_append, List.count_append,
        List.count_cons_self]
      omega

/-- Witness for the amended C8: the lines `5` (a single integer), `x 1` (first field not
numeric) and `4 b` (second field not numeric) are skipped, and the lines `1-2` and `1 2abc`
are read as the edges `(1, -2)` and `(1, 2)`. -/
theorem C8_line_skipped_unless_two_leading_integers_witness :
    load ("1 2\n5\n2 3\n").toList = load ("1 2\n2 3\n").toList ∧
    load ("1 2\n5\n").toList = load ("1 2\n").toList ∧
    load ("1 2\nx 1\n2 3\n").toList = load ("1 2\n2 3\n").toList ∧
    load ("1 2\n4 b\n2 3\n").toList = load ("1 2\n2 3\n").toList ∧
    ((load ("4 5\n1-2\n").toList).getNumEdges = (load ("4 5\n").toList).getNumEdges + 1 ∧
      (load ("4 5\n1-2\n").toList).getInternalId 1 ≠ -1 ∧
      (load ("4 5\n1-2\n").toList).getInternalId (-2) ≠ -1 ∧
      ((load ("4 5\n1-2\n").toList).getNeighbors 1).count (-2) =
        ((load ("4 5\n").toList).getNeighbors 1).count (-2) + 1) ∧
    ((load ("1 2\n1 2abc\n").toList).getNumEdges = (load ("1 2\n").toList).getNumEdges + 1 ∧
      (load ("1 2\n1 2abc\n").toList).getInternalId 1 ≠ -1 ∧
      (load ("1 2\n1 2abc\n").toList).getInternalId 2 ≠ -1 ∧
      ((load ("1 2\n1 2abc\n").toList).getNeighbors 1).count 2 =
        ((load ("1 2\n").toList).getNeighbors 1).count 2 + 1) :=
  ⟨(C8_line_skipped_unless_two_leading_integers ("1 2\n5\n2 3\n").toList ("1 2\n2 3\n").toList
      [("1 2").toList] [("2 3").toList] ("5").toList (by decide) (by decide)).2.1
      [] ['5'] [] [] ['5'] (by decide) (by decide) ⟨rfl, Or.inl rfl, by decide, by decide⟩
      (by decide),
   (C8_line_skipped_unless_two_leading_integers ("1 2\n5\n").toList ("1 2\n").toList
      [("1 2").toList] [] ("5").toList (by decide) (by decide)).1
      (fun u v hb => by
        have h := parsePair_of_begins hb
        have h0 : parsePair ("5").toList = none := by decide
        rw [h0] at h
        cases h),
   (C8_line_skipped_unless_two_leading_integers ("1 2\nx 1\n2 3\n").toList
      ("1 2\n2 3\n").toList [("1 2").toList] [("2 3").toList] ("x 1").toList
      (by decide) (by decide)).2.2.1
      [] 'x' (" 1").toList (by decide) (by decide) (by decide) (by decide) (by decide)
      (by decide),
   (C8_line_skipped_unless_two_leading_integers ("1 2\n4 b\n2 3\n").toList
      ("1 2\n2 3\n").toList [("1 2").toList] [("2 3").toList] ("4 b").toList
      (by decide) (by decide)).2.2.2.1
      [] ['4'] [' '] 'b' [] [] ['4'] (by decide) (by decide)
      ⟨rfl, Or.inl rfl, by decide, by decide⟩ (by decide) (by decide) (by decide) (by decide)
      (by decide),
   (C8_line_skipped_unless_two_leading_integers ("4 5\n1-2\n").toList ("4 5\n").toList
      [("4 5").toList] [] ("1-2").toList (by decide) (by decide)).2.2.2.2 1 (-2)
      ⟨[], ['1'], [], ['-', '2'], [], by decide, by decide, by decide,
        ⟨[], ['1'], ⟨rfl, Or.inl rfl, by decide, by decide⟩,
          by simp [signedValue, decimalValue], by decide, by decide⟩,
        ⟨['-'], ['2'], ⟨rfl, Or.inr (Or.inr rfl), by decide, by decide⟩,
          by simp [signedValue, decimalValue], by decide, by decide⟩,
        (fun _ => ⟨'-', ['2'], rfl, Or.inr rfl⟩),
        (fun c cs e => by cases e)⟩,
   (C8_line_skipped_unless_two_leading_integers ("1 2\n1 2abc\n").toList ("1 2\n").toList
      [("1 2").toList] [] ("1 2abc").toList (by decide) (by decide)).2.2.2.2 1 2
      ⟨[], ['1'], [' '], ['2'], ['a', 'b', 'c'], by decide, by decide, by decide,
        ⟨[], ['1'], ⟨rfl, Or.inl rfl, by decide, by decide⟩,
          by simp [signedValue, decimalValue], by decide, by decide⟩,
        ⟨[], ['2'], ⟨rfl, Or.inl rfl, by decide, by decide⟩,
          by simp [signedValue, decimalValue], by decide, by decide⟩,
        (fun h => by cases h),
        (fun c cs e => by cases e; decide)⟩⟩

end NeuroNet
